import Mathlib

/-!
Verification of the powerix exponentiation-kernel library.

Shallow embedding of `src/pow_impl.hpp`, `src/error_util.hpp` and the cached
kernels of `benchmark/benchmark_pow.cpp` (`pow_cached`, `pow_vec_cached_float`).

Modelling conventions:
* C++ integer types are modelled by an arbitrary commutative ring (covering
  exact integers `ℤ` and fixed-width wrap-around arithmetic `ZMod (2^w)`,
  since reduction mod `2^w` is a ring homomorphism).
* IEEE-754 binary64 values are modelled two ways.  For claims about algebraic
  structure the exact rationals `ℚ` are used.  For the bit-for-bit claim,
  values are rationals and every multiplication is followed by `fl`,
  round-to-nearest-ties-to-even at 53 significant bits with unbounded
  exponent (faithful to binary64 on the normal range; overflow, subnormals
  and signed zero do not arise in any statement below).
* libm routines (`std::pow`, `cbrt`, `exp`, `log`) are external to the
  repository; kernels that call them are parameterised by an arbitrary
  function standing for the libm routine, so every theorem holds for
  whatever the platform library computes.  NaN/infinity propagation of
  `exp`/`log`/`cbrt`/`*` is modelled on the type `Fd` following IEEE-754
  (log of a negative value is NaN, log 0 is -inf, exp of -inf is 0, cbrt is
  total on the reals).
* the static mutable caches become explicit state passed through each call;
  `Reachable` predicates describe every cache state a run of the program can
  produce from the initial (empty, zero-initialised) state.
-/

namespace powerix

/-! ## Definitions: shallow embedding of the kernels, the error utility,
the binary64 rounding model, and the cache state machines -/

/-- Loop of `pow_fast_int` (pow_impl.hpp:62-68): square-and-multiply,
least-significant bit first. -/
def fastLoopR {R : Type _} [CommRing R] (result current : R) : ℕ → R
  | 0 => result
  | e + 1 =>
    fastLoopR (if (e + 1) % 2 = 1 then result * current else result)
      (current * current) ((e + 1) / 2)
decreasing_by exact Nat.div_lt_self (Nat.succ_pos e) one_lt_two

/-- Kernel `pow_fast_int` (pow_impl.hpp:51-71).  The C++ exponent is a signed
`int`; negative exponents return 0. -/
def pow_fast_int {R : Type _} [CommRing R] (base : R) (exp : ℤ) : R :=
  if exp < 0 then 0
  else if exp = 0 then 1
  else if exp = 1 then base
  else fastLoopR 1 base exp.toNat

/-- Kernel `pow_hierarchical_int` (pow_impl.hpp:74-80): divide and conquer,
recursing on `exp >> 1`. -/
def pow_hierarchical_int {R : Type _} [CommRing R] (base : R) : ℕ → R
  | 0 => 1
  | 1 => base
  | e + 2 =>
    let half := pow_hierarchical_int (base * base) ((e + 2) / 2)
    if (e + 2) % 2 = 1 then base * half else half
decreasing_by exact Nat.div_lt_self (Nat.succ_pos (e + 1)) one_lt_two

/-- Loop of `pow_ultra_fast` (pow_impl.hpp:113-119): runs while `exp > 1`,
then multiplies the final square into the accumulator. -/
def ultraLoopR {R : Type _} [CommRing R] (result base : R) (e : ℕ) : R :=
  if e ≤ 1 then result * base
  else ultraLoopR (if e % 2 = 1 then result * base else result)
    (base * base) (e / 2)
decreasing_by exact Nat.div_lt_self (by omega) one_lt_two

/-- Kernel `pow_ultra_fast` (pow_impl.hpp:92-122): unrolled fast path for
exponents 0,1,2,3,4,8 (the C++ `switch`) and a binary loop otherwise.  The
C++ exponent is `unsigned int`. -/
def pow_ultra_fast {R : Type _} [CommRing R] (base : R) (e : ℕ) : R :=
  if e = 0 then 1
  else if e = 1 then base
  else if e = 2 then base * base
  else if e = 3 then base * base * base
  else if e = 4 then let sq := base * base; sq * sq
  else if e = 8 then let sq := base * base; let quad := sq * sq; quad * quad
  else ultraLoopR 1 base e

/-- Recursion depth of `pow_hierarchical_int` / `pow_hierarchical_float`:
number of recursive calls until a base case `e = 0` or `e = 1` is reached. -/
def hierDepth : ℕ → ℕ
  | 0 => 0
  | 1 => 0
  | e + 2 => 1 + hierDepth ((e + 2) / 2)
decreasing_by exact Nat.div_lt_self (Nat.succ_pos (e + 1)) one_lt_two

/-- Round a rational to the nearest integer, ties to even. -/
def rhe (s : ℚ) : ℤ :=
  if s - ⌊s⌋ < 1 / 2 then ⌊s⌋
  else if (1 : ℚ) / 2 < s - ⌊s⌋ then ⌊s⌋ + 1
  else if ⌊s⌋ % 2 = 0 then ⌊s⌋ else ⌊s⌋ + 1

/-- Binary64 rounding: round to nearest, ties to even, at 53 significant
bits, with unbounded exponent (no overflow or subnormals; these do not occur
in the ranges used by any statement in this file). -/
def fl (q : ℚ) : ℚ :=
  if q = 0 then 0
  else
    (if q < 0 then -(rhe (|q| * 2 ^ ((52 : ℤ) - Int.log 2 |q|)) : ℚ)
     else (rhe (|q| * 2 ^ ((52 : ℤ) - Int.log 2 |q|)) : ℚ)) *
      2 ^ (Int.log 2 |q| - 52)

/-- Correctly rounded binary64 multiplication. -/
def fpMul (x y : ℚ) : ℚ := fl (x * y)

/-- Loop of `pow_fast_int` instantiated at a floating-point base
(each C++ `*=` is one rounded multiplication). -/
def fastLoopF (result current : ℚ) : ℕ → ℚ
  | 0 => result
  | e + 1 =>
    fastLoopF (if (e + 1) % 2 = 1 then fpMul result current else result)
      (fpMul current current) ((e + 1) / 2)
decreasing_by exact Nat.div_lt_self (Nat.succ_pos e) one_lt_two

/-- Kernel `pow_fast_int` (pow_impl.hpp:51-71) at a floating-point base. -/
def pow_fast_int_fp (base : ℚ) (exp : ℤ) : ℚ :=
  if exp < 0 then 0
  else if exp = 0 then 1
  else if exp = 1 then base
  else fastLoopF 1 base exp.toNat

/-- Kernel `pow_hierarchical_float` (pow_impl.hpp:83-89). -/
def pow_hierarchical_float (base : ℚ) : ℕ → ℚ
  | 0 => 1
  | 1 => base
  | e + 2 =>
    let half := pow_hierarchical_float (fpMul base base) ((e + 2) / 2)
    if (e + 2) % 2 = 1 then fpMul base half else half
decreasing_by exact Nat.div_lt_self (Nat.succ_pos (e + 1)) one_lt_two

/-- Loop of `pow_ultra_fast` at a floating-point base. -/
def ultraLoopF (result base : ℚ) (e : ℕ) : ℚ :=
  if e ≤ 1 then fpMul result base
  else ultraLoopF (if e % 2 = 1 then fpMul result base else result)
    (fpMul base base) (e / 2)
decreasing_by exact Nat.div_lt_self (by omega) one_lt_two

/-- Kernel `pow_ultra_fast` (pow_impl.hpp:92-122) at a floating-point base. -/
def pow_ultra_fast_fp (base : ℚ) (e : ℕ) : ℚ :=
  if e = 0 then 1
  else if e = 1 then base
  else if e = 2 then fpMul base base
  else if e = 3 then fpMul (fpMul base base) base
  else if e = 4 then let sq := fpMul base base; fpMul sq sq
  else if e = 8 then
    let sq := fpMul base base; let quad := fpMul sq sq; fpMul quad quad
  else ultraLoopF 1 base e

/-- Error report `{abs_err, rel_err}` (error_util.hpp:8-11). -/
structure Error where
  abs_err : ℚ
  rel_err : ℚ
deriving DecidableEq

/-- Utility `compute_error` (error_util.hpp:14-19). -/
def compute_error (reference value : ℚ) : Error :=
  { abs_err := |reference - value|
    rel_err := if reference ≠ 0 then |reference - value| / |reference| else 0 }

/-- Model of `std::round`: round half away from zero. -/
def roundAway (q : ℚ) : ℤ :=
  if q < 0 then -⌊-q + 1 / 2⌋ else ⌊q + 1 / 2⌋

/-- Accumulation loop of `pow_2_3_series` (pow_impl.hpp:324-327): `n`
iterations remaining, current index `k`, running `sum` and `term`. -/
def seriesLoop (z : ℚ) : ℕ → ℕ → ℚ → ℚ → ℚ
  | _, 0, sum, _ => sum
  | k, n + 1, sum, term =>
    seriesLoop z (k + 1) n (sum + term * ((2 / 3 - (k : ℚ) + 1) / (k : ℚ) * z))
      (term * ((2 / 3 - (k : ℚ) + 1) / (k : ℚ) * z))

/-- Kernel `pow_2_3_series` (pow_impl.hpp:301-330).  `cbrtf` and `powf` stand
for the libm routines `cbrt` and `pow`; `none` models a NaN result. -/
def pow_2_3_series (cbrtf : ℚ → ℚ) (powf : ℚ → ℚ → ℚ) (base : ℚ) : Option ℚ :=
  if base = 0 then some 0
  else if base < 0 then none
  else
    let n : ℚ := (roundAway (cbrtf base) : ℚ)
    let n_squared := n * n
    let a := n_squared * n
    if a = 0 then some (powf base (2 / 3))
    else some (n_squared * seriesLoop (base / a - 1) 1 9 1 1)

/-- Generalised binomial coefficient of the series: the exact coefficient of
`z^k` in the Newton expansion of `(1+z)^(2/3)`. -/
def binomCoef23 (k : ℕ) : ℚ :=
  ∏ j ∈ Finset.range k, (2 / 3 - (j : ℚ)) / ((j : ℚ) + 1)

/-- An IEEE binary64 value: finite (exact rational), an infinity, or NaN. -/
inductive Fd where
  | fin : ℚ → Fd
  | pinf : Fd
  | ninf : Fd
  | nan : Fd
deriving DecidableEq

/-- IEEE multiplication on `Fd` (sign handling of infinities; `0 * inf`
and any product with NaN are NaN). -/
def mulFd : Fd → Fd → Fd
  | .nan, _ => .nan
  | .fin a, .fin b => .fin (a * b)
  | .fin a, .pinf => if 0 < a then .pinf else if a < 0 then .ninf else .nan
  | .fin a, .ninf => if 0 < a then .ninf else if a < 0 then .pinf else .nan
  | .fin _, .nan => .nan
  | .pinf, .fin b => if 0 < b then .pinf else if b < 0 then .ninf else .nan
  | .pinf, .pinf => .pinf
  | .pinf, .ninf => .ninf
  | .pinf, .nan => .nan
  | .ninf, .fin b => if 0 < b then .ninf else if b < 0 then .pinf else .nan
  | .ninf, .pinf => .ninf
  | .ninf, .ninf => .pinf
  | .ninf, .nan => .nan

/-- libm `cbrt`: total on the reals, never NaN for a non-NaN argument. -/
def cbrtFd (cbrtf : ℚ → ℚ) : Fd → Fd
  | .fin q => .fin (cbrtf q)
  | .pinf => .pinf
  | .ninf => .ninf
  | .nan => .nan

/-- libm `log`: NaN on negative arguments, `-inf` at zero. -/
def logFd (logf : ℚ → ℚ) : Fd → Fd
  | .fin q => if 0 < q then .fin (logf q) else if q = 0 then .ninf else .nan
  | .pinf => .pinf
  | .ninf => .nan
  | .nan => .nan

/-- libm `exp`: total, `exp(-inf) = 0`. -/
def expFd (expf : ℚ → ℚ) : Fd → Fd
  | .fin q => .fin (expf q)
  | .pinf => .pinf
  | .ninf => .fin 0
  | .nan => .nan

/-- Kernel `pow_2_3_cbrt` (pow_impl.hpp:255-259): `cbrt(x*x)`. -/
def pow_2_3_cbrt (cbrtf : ℚ → ℚ) (x : Fd) : Fd :=
  cbrtFd cbrtf (mulFd x x)

/-- Kernel `pow_2_3_exp_log` (pow_impl.hpp:275-279):
`exp(two_thirds * log(base))`. -/
def pow_2_3_exp_log (logf expf : ℚ → ℚ) (base : Fd) : Fd :=
  expFd expf (mulFd (.fin (2 / 3)) (logFd logf base))

/-- Integer cube root (largest `k` with `k^3 ≤ n`), used to give the libm
`cbrt` parameter a concrete value that is exact on perfect cubes. -/
def icbrt (n : ℕ) : ℕ :=
  ((List.range (n + 1)).filter (fun k => k * k * k ≤ n)).length - 1

/-- A concrete stand-in for libm `cbrt`: exact on non-negative integer
perfect cubes (the only inputs at which it is evaluated below). -/
def cbrtModel (q : ℚ) : ℚ :=
  if 0 ≤ q ∧ q.den = 1 then (icbrt q.num.toNat : ℚ) else 0

/-- Lookup in an association list keyed by `(base, exp)` (the model of
`std::map<pair<double,int>,double>::find` and of the unordered flat map). -/
def mapFind (k : ℚ × ℤ) : List ((ℚ × ℤ) × ℚ) → Option ℚ
  | [] => none
  | kv :: rest => if kv.1 = k then some kv.2 else mapFind k rest

/-- Kernel `pow_cached_map` (pow_impl.hpp:125-136); also `pow_cached`
(benchmark_pow.cpp:611-623).  On a miss it computes `f base exp`, stores it
and returns it; on a hit it returns the stored value unchanged. -/
def pow_cached_map (f : ℚ → ℤ → ℚ) (cache : List ((ℚ × ℤ) × ℚ))
    (base : ℚ) (exp : ℤ) : ℚ × List ((ℚ × ℤ) × ℚ) :=
  match mapFind (base, exp) cache with
  | some v => (v, cache)
  | none => (f base exp, ((base, exp), f base exp) :: cache)

/-- Kernel `pow_cached_unordered_pair` (pow_impl.hpp:166-179): an unordered
map with a pair key and custom hash; same lookup/insert semantics as the
ordered map. -/
def pow_cached_unordered_pair (f : ℚ → ℤ → ℚ) (cache : List ((ℚ × ℤ) × ℚ))
    (base : ℚ) (exp : ℤ) : ℚ × List ((ℚ × ℤ) × ℚ) :=
  match mapFind (base, exp) cache with
  | some v => (v, cache)
  | none => (f base exp, ((base, exp), f base exp) :: cache)

/-- Inner lookup of the nested cache (`unordered_map<int,double>::find`). -/
def innerFind (e : ℤ) : List (ℤ × ℚ) → Option ℚ
  | [] => none
  | kv :: rest => if kv.1 = e then some kv.2 else innerFind e rest

/-- Outer lookup of the nested cache
(`unordered_map<double, InnerMap>::find`). -/
def outerFind (b : ℚ) : List (ℚ × List (ℤ × ℚ)) → Option (List (ℤ × ℚ))
  | [] => none
  | kv :: rest => if kv.1 = b then some kv.2 else outerFind b rest

/-- Model of `cache[base][exp] = result`: extend the inner map of `base`
(creating it when absent). -/
def nestedInsert (b : ℚ) (e : ℤ) (v : ℚ) :
    List (ℚ × List (ℤ × ℚ)) → List (ℚ × List (ℤ × ℚ))
  | [] => [(b, [(e, v)])]
  | kv :: rest =>
    if kv.1 = b then (kv.1, (e, v) :: kv.2) :: rest
    else kv :: nestedInsert b e v rest

/-- Kernel `pow_cached_unordered_nested` (pow_impl.hpp:139-154). -/
def pow_cached_unordered_nested (f : ℚ → ℤ → ℚ)
    (cache : List (ℚ × List (ℤ × ℚ))) (base : ℚ) (exp : ℤ) :
    ℚ × List (ℚ × List (ℤ × ℚ)) :=
  match outerFind base cache with
  | some inner =>
    match innerFind exp inner with
    | some v => (v, cache)
    | none => (f base exp, nestedInsert base exp (f base exp) cache)
  | none => (f base exp, nestedInsert base exp (f base exp) cache)

/-- Model of `cache.resize(b + 1)` guarded by `b >= cache.size()`
(pow_impl.hpp:190-192): pad with default-constructed empty rows. -/
def vecResize {α : Type _} (s : List (List (Option α))) (b : ℕ) :
    List (List (Option α)) :=
  if s.length ≤ b then s ++ List.replicate (b + 1 - s.length) [] else s

/-- Model of `cache[b].resize(exp + 1)` guarded by `exp >= cache[b].size()`
(pow_impl.hpp:193-195): pad with `nullopt`. -/
def rowResize {α : Type _} (row : List (Option α)) (e : ℕ) : List (Option α) :=
  if row.length ≤ e then row ++ List.replicate (e + 1 - row.length) none
  else row

/-- Common body of the two `vector<vector<optional>>` caches
(pow_impl.hpp:187-202, benchmark_pow.cpp:768-785): resize both levels, test
`has_value`, and on a miss store the computed value `v` at `(b, e)`. -/
def vecCacheCore {α : Type _} (s : List (List (Option α))) (b e : ℕ) (v : α) :
    α × List (List (Option α)) :=
  match (rowResize ((vecResize s b).getD b []) e).getD e none with
  | some w => (w, (vecResize s b).set b (rowResize ((vecResize s b).getD b []) e))
  | none =>
    (v, (vecResize s b).set b
      ((rowResize ((vecResize s b).getD b []) e).set e (some v)))

/-- Kernel `pow_cached_vector_optional_int` (pow_impl.hpp:183-203),
instantiated at exact integers: negative bases bypass the cache, otherwise
the row index is `static_cast<size_t>(base)` and the computed value is the
hierarchical kernel's result. -/
def pow_cached_vector_optional_int (s : List (List (Option ℤ)))
    (base : ℤ) (exp : ℕ) : ℤ × List (List (Option ℤ)) :=
  if base < 0 then (pow_hierarchical_int base exp, s)
  else vecCacheCore s base.toNat exp (pow_hierarchical_int base exp)

/-- State of `pow_cached_static_array`: the zero-initialised value array and
the `is_cached` flag array (pow_impl.hpp:209-210). -/
structure StaticCache where
  values : ℕ → ℕ → ℤ
  flags : ℕ → ℕ → Bool

/-- The zero-initialised static arrays. -/
def staticInit : StaticCache :=
  { values := fun _ _ => 0, flags := fun _ _ => false }

/-- Kernel `pow_cached_static_array` (pow_impl.hpp:206-223) with the default
`MAX_BASE = MAX_EXP = 16`, at exact integers. -/
def pow_cached_static_array (s : StaticCache) (base : ℤ) (exp : ℕ) :
    ℤ × StaticCache :=
  if 0 ≤ base ∧ base.toNat < 16 ∧ exp < 16 then
    if s.flags base.toNat exp then (s.values base.toNat exp, s)
    else
      (pow_hierarchical_int base exp,
        { values := fun i j =>
            if i = base.toNat ∧ j = exp then pow_hierarchical_int base exp
            else s.values i j
          flags := fun i j =>
            if i = base.toNat ∧ j = exp then true else s.flags i j })
  else (pow_hierarchical_int base exp, s)

/-- Kernel `pow_vec_cached_float` (benchmark_pow.cpp:766-786): the cache row
index is the discretised key `static_cast<size_t>(std::abs(base) * 1000)`
("discretisation to 3 decimals"); the stored value is the hierarchical
float kernel's result. -/
def pow_vec_cached_float (s : List (List (Option ℚ))) (base : ℚ) (exp : ℕ) :
    ℚ × List (List (Option ℚ)) :=
  vecCacheCore s (⌊|base| * 1000⌋).toNat exp (pow_hierarchical_float base exp)

/-- Cache states of `pow_cached_map` reachable from the initial empty map. -/
inductive ReachableMap (f : ℚ → ℤ → ℚ) : List ((ℚ × ℤ) × ℚ) → Prop
  | empty : ReachableMap f []
  | step (s : List ((ℚ × ℤ) × ℚ)) (b : ℚ) (e : ℤ) :
      ReachableMap f s → ReachableMap f (pow_cached_map f s b e).2

/-- Cache states of `pow_cached_unordered_pair` reachable from empty. -/
inductive ReachablePair (f : ℚ → ℤ → ℚ) : List ((ℚ × ℤ) × ℚ) → Prop
  | empty : ReachablePair f []
  | step (s : List ((ℚ × ℤ) × ℚ)) (b : ℚ) (e : ℤ) :
      ReachablePair f s → ReachablePair f (pow_cached_unordered_pair f s b e).2

/-- Cache states of `pow_cached_unordered_nested` reachable from empty. -/
inductive ReachableNested (f : ℚ → ℤ → ℚ) : List (ℚ × List (ℤ × ℚ)) → Prop
  | empty : ReachableNested f []
  | step (s : List (ℚ × List (ℤ × ℚ))) (b : ℚ) (e : ℤ) :
      ReachableNested f s → ReachableNested f (pow_cached_unordered_nested f s b e).2

/-- Cache states of `pow_cached_vector_optional_int` reachable from empty. -/
inductive ReachableVecInt : List (List (Option ℤ)) → Prop
  | empty : ReachableVecInt []
  | step (s : List (List (Option ℤ))) (b : ℤ) (e : ℕ) :
      ReachableVecInt s → ReachableVecInt (pow_cached_vector_optional_int s b e).2

/-- Cache states of `pow_cached_static_array` reachable from the
zero-initialised arrays. -/
inductive ReachableStatic : StaticCache → Prop
  | empty : ReachableStatic staticInit
  | step (s : StaticCache) (b : ℤ) (e : ℕ) :
      ReachableStatic s → ReachableStatic (pow_cached_static_array s b e).2

/-- Cache states of `pow_vec_cached_float` reachable from empty. -/
inductive ReachableVecFloat : List (List (Option ℚ)) → Prop
  | empty : ReachableVecFloat []
  | step (s : List (List (Option ℚ))) (b : ℚ) (e : ℕ) :
      ReachableVecFloat s → ReachableVecFloat (pow_vec_cached_float s b e).2

/-- Lookup in a vector-of-vectors cache: entry at row `b`, column `e`
(absent rows and columns read as `nullopt`). -/
def vecGet {α : Type _} (s : List (List (Option α))) (b e : ℕ) : Option α :=
  (s.getD b []).getD e none

/-- Every value stored in a flat `(base, exp)`-keyed cache is the reference
value `f` at its own key. -/
def MapGood (f : ℚ → ℤ → ℚ) (s : List ((ℚ × ℤ) × ℚ)) : Prop :=
  ∀ kv ∈ s, kv.2 = f kv.1.1 kv.1.2

/-- Combined lookup of the nested cache: outer map by base, inner by exp. -/
def nestedFind (b : ℚ) (e : ℤ) (c : List (ℚ × List (ℤ × ℚ))) : Option ℚ :=
  match outerFind b c with
  | some inner => innerFind e inner
  | none => none

/-- Every value stored in the nested cache is the reference value `f` at the
(outer, inner) key pair under which it is stored. -/
def NestedGood (f : ℚ → ℤ → ℚ) (c : List (ℚ × List (ℤ × ℚ))) : Prop :=
  ∀ p ∈ c, ∀ q ∈ p.2, q.2 = f p.1 q.1

/-- Every flagged slot of the static arrays holds the hierarchical kernel's
value for its own indices. -/
def StaticGood (s : StaticCache) : Prop :=
  ∀ b e : ℕ, s.flags b e = true → s.values b e = pow_hierarchical_int (b : ℤ) e

/-- Every value stored in the integer vector cache is the hierarchical
kernel's value at its own (row, column) index pair. -/
def VecIntGood (s : List (List (Option ℤ))) : Prop :=
  ∀ (b e : ℕ) (v : ℤ), vecGet s b e = some v → v = pow_hierarchical_int (b : ℤ) e

/-- In the float vector cache, every value stored in exponent column 0 is 1
(whatever base stored it, the hierarchical kernel returns 1 at exponent 0). -/
def VecFloatZeroGood (s : List (List (Option ℚ))) : Prop :=
  ∀ (b : ℕ) (v : ℚ), vecGet s b 0 = some v → v = 1

/-- Number of distinct keys in a flat `(base, exp)`-keyed cache. -/
def mapKeyCount (s : List ((ℚ × ℤ) × ℚ)) : ℕ := s.length

/-- Number of distinct keys in the nested cache. -/
def nestedKeyCount (c : List (ℚ × List (ℤ × ℚ))) : ℕ :=
  (c.map (fun p => p.2.length)).sum

/-- Number of occupied slots in a vector-of-vectors cache. -/
def vecKeyCount {α : Type _} (s : List (List (Option α))) : ℕ :=
  (s.map (fun row => row.countP (fun o => o.isSome))).sum

/-- Number of flagged slots in the static-array cache. -/
def staticKeyCount (s : StaticCache) : ℕ :=
  ((List.range 16).map
    (fun i => ((List.range 16).filter (fun j => s.flags i j)).length)).sum

/-! ## Theorems -/

theorem fastLoopR_eq {R : Type _} [CommRing R] :
    ∀ (e : ℕ) (r c : R), fastLoopR r c e = r * c ^ e := by
  intro e
  induction e using Nat.strong_induction_on with
  | _ e ih =>
    match e with
    | 0 => intro r c; simp [fastLoopR]
    | e + 1 =>
      intro r c
      rw [fastLoopR]
      rw [ih ((e + 1) / 2) (Nat.div_lt_self (Nat.succ_pos e) one_lt_two)]
      rcases Nat.even_or_odd (e + 1) with he | he
      · have h2 : (e + 1) % 2 = 0 := Nat.even_iff.mp he
        have hdiv : 2 * ((e + 1) / 2) = e + 1 := by omega
        rw [if_neg (by omega), ← pow_two, ← pow_mul, hdiv]
      · have h2 : (e + 1) % 2 = 1 := Nat.odd_iff.mp he
        have hdiv : 2 * ((e + 1) / 2) + 1 = e + 1 := by omega
        rw [if_pos h2, ← pow_two, ← pow_mul, mul_assoc, ← pow_succ']
        rw [hdiv]

theorem pow_hierarchical_int_eq {R : Type _} [CommRing R] :
    ∀ (e : ℕ) (b : R), pow_hierarchical_int b e = b ^ e := by
  intro e
  induction e using Nat.strong_induction_on with
  | _ e ih =>
    match e with
    | 0 => intro b; simp [pow_hierarchical_int]
    | 1 => intro b; simp [pow_hierarchical_int]
    | e + 2 =>
      intro b
      rw [pow_hierarchical_int]
      rw [ih ((e + 2) / 2) (Nat.div_lt_self (Nat.succ_pos (e + 1)) one_lt_two)]
      rcases Nat.even_or_odd (e + 2) with he | he
      · have h2 : (e + 2) % 2 = 0 := Nat.even_iff.mp he
        have hdiv : 2 * ((e + 2) / 2) = e + 2 := by omega
        rw [if_neg (by omega), ← pow_two, ← pow_mul, hdiv]
      · have h2 : (e + 2) % 2 = 1 := Nat.odd_iff.mp he
        have hdiv : 2 * ((e + 2) / 2) + 1 = e + 2 := by omega
        rw [if_pos h2, ← pow_two, ← pow_mul, ← pow_succ']
        rw [hdiv]

theorem ultraLoopR_eq {R : Type _} [CommRing R] :
    ∀ (e : ℕ), 1 ≤ e → ∀ (r c : R), ultraLoopR r c e = r * c ^ e := by
  intro e
  induction e using Nat.strong_induction_on with
  | _ e ih =>
    intro he r c
    rw [ultraLoopR]
    by_cases h1 : e ≤ 1
    · have : e = 1 := by omega
      subst this
      simp
    · rw [if_neg h1]
      rw [ih (e / 2) (Nat.div_lt_self (by omega) one_lt_two) (by omega)]
      rcases Nat.even_or_odd e with he2 | he2
      · have h2 : e % 2 = 0 := Nat.even_iff.mp he2
        have hdiv : 2 * (e / 2) = e := by omega
        rw [if_neg (by omega), ← pow_two, ← pow_mul, hdiv]
      · have h2 : e % 2 = 1 := Nat.odd_iff.mp he2
        have hdiv : 2 * (e / 2) + 1 = e := by omega
        rw [if_pos h2, ← pow_two, ← pow_mul, mul_assoc, ← pow_succ']
        rw [hdiv]

theorem pow_fast_int_eq {R : Type _} [CommRing R] (b : R) (e : ℕ) :
    pow_fast_int b (e : ℤ) = b ^ e := by
  unfold pow_fast_int
  rw [if_neg (by omega)]
  by_cases h0 : e = 0
  · subst h0; simp
  · rw [if_neg (by omega)]
    by_cases h1 : e = 1
    · subst h1; simp
    · rw [if_neg (by omega), Int.toNat_natCast, fastLoopR_eq, one_mul]

theorem pow_ultra_fast_eq {R : Type _} [CommRing R] (b : R) (e : ℕ) :
    pow_ultra_fast b e = b ^ e := by
  unfold pow_ultra_fast
  by_cases h0 : e = 0
  · subst h0; simp
  rw [if_neg h0]
  by_cases h1 : e = 1
  · subst h1; simp
  rw [if_neg h1]
  by_cases h2 : e = 2
  · subst h2; simp [pow_two]
  rw [if_neg h2]
  by_cases h3 : e = 3
  · subst h3; simp; ring
  rw [if_neg h3]
  by_cases h4 : e = 4
  · subst h4; simp; ring
  rw [if_neg h4]
  by_cases h8 : e = 8
  · subst h8; simp; ring
  rw [if_neg h8]
  rw [ultraLoopR_eq _ (by omega), one_mul]

theorem hierDepth_eq_log2 : ∀ e : ℕ, hierDepth e = Nat.log2 e := by
  intro e
  induction e using Nat.strong_induction_on with
  | _ e ih =>
    match e with
    | 0 => simp [hierDepth, Nat.log2]
    | 1 => simp [hierDepth, Nat.log2]
    | e + 2 =>
      rw [hierDepth, ih ((e + 2) / 2) (Nat.div_lt_self (Nat.succ_pos (e + 1)) one_lt_two)]
      conv_rhs => rw [Nat.log2]
      rw [if_pos (by omega)]
      omega

theorem rhe_intCast (m : ℤ) : rhe (m : ℚ) = m := by
  unfold rhe
  rw [Int.floor_intCast]
  norm_num

theorem rhe_ge_floor (s : ℚ) : ⌊s⌋ ≤ rhe s := by
  unfold rhe
  split_ifs <;> omega

theorem rhe_le_floor_add_one (s : ℚ) : rhe s ≤ ⌊s⌋ + 1 := by
  unfold rhe
  split_ifs <;> omega

theorem int_log_eq_of_bounds {e : ℤ} {q : ℚ} (h0 : 0 < q)
    (h1 : (2 : ℚ) ^ e ≤ q) (h2 : q < (2 : ℚ) ^ (e + 1)) : Int.log 2 q = e := by
  have hcast : ((2 : ℕ) : ℚ) = (2 : ℚ) := by norm_num
  have hlo : e ≤ Int.log 2 q :=
    (Int.zpow_le_iff_le_log (show (1 : ℕ) < 2 by norm_num) h0).mp
      (by rw [hcast]; exact h1)
  have hhi : Int.log 2 q < e + 1 :=
    (Int.lt_zpow_iff_log_lt (show (1 : ℕ) < 2 by norm_num) h0).mp
      (by rw [hcast]; exact h2)
  omega

theorem fl_eval_pos {q : ℚ} (e : ℤ) (h0 : 0 < q)
    (h1 : (2 : ℚ) ^ e ≤ q) (h2 : q < (2 : ℚ) ^ (e + 1)) :
    fl q = (rhe (q * 2 ^ ((52 : ℤ) - e)) : ℚ) * 2 ^ (e - 52) := by
  unfold fl
  rw [if_neg (ne_of_gt h0), abs_of_pos h0, int_log_eq_of_bounds h0 h1 h2,
    if_neg (not_lt.mpr (le_of_lt h0))]

theorem fl_fixed {m : ℤ} (e : ℤ) (hlo : 2 ^ 52 ≤ m) (hhi : m < 2 ^ 53) :
    fl ((m : ℚ) * 2 ^ (e - 52)) = (m : ℚ) * 2 ^ (e - 52) := by
  have hz : (0 : ℚ) < 2 ^ (e - 52) := zpow_pos (by norm_num) _
  have hm0 : (0 : ℚ) < (m : ℚ) := by
    have : (0 : ℤ) < m := lt_of_lt_of_le (by norm_num) hlo
    exact_mod_cast this
  have h0 : (0 : ℚ) < (m : ℚ) * 2 ^ (e - 52) := mul_pos hm0 hz
  have h1 : (2 : ℚ) ^ e ≤ (m : ℚ) * 2 ^ (e - 52) := by
    have hmq : (2 : ℚ) ^ (52 : ℤ) ≤ (m : ℚ) := by exact_mod_cast hlo
    calc (2 : ℚ) ^ e = (2 : ℚ) ^ (52 : ℤ) * 2 ^ (e - 52) := by
          rw [← zpow_add₀ (two_ne_zero) 52 (e - 52)]
          congr 1
          ring
      _ ≤ (m : ℚ) * 2 ^ (e - 52) := by
          exact mul_le_mul_of_nonneg_right hmq (le_of_lt hz)
  have h2 : (m : ℚ) * 2 ^ (e - 52) < (2 : ℚ) ^ (e + 1) := by
    have hmq : (m : ℚ) < (2 : ℚ) ^ (53 : ℤ) := by exact_mod_cast hhi
    calc (m : ℚ) * 2 ^ (e - 52) < (2 : ℚ) ^ (53 : ℤ) * 2 ^ (e - 52) :=
          mul_lt_mul_of_pos_right hmq hz
      _ = (2 : ℚ) ^ (e + 1) := by
          rw [← zpow_add₀ (two_ne_zero) 53 (e - 52)]
          congr 1
          ring
  rw [fl_eval_pos e h0 h1 h2]
  have harg : (m : ℚ) * 2 ^ (e - 52) * 2 ^ ((52 : ℤ) - e) = (m : ℚ) := by
    rw [mul_assoc, ← zpow_add₀ (two_ne_zero) (e - 52) (52 - e)]
    have : e - 52 + (52 - e) = 0 := by ring
    rw [this, zpow_zero, mul_one]
  rw [harg, rhe_intCast]

theorem fl_zero : fl 0 = 0 := by simp [fl]

theorem fl_neg (q : ℚ) : fl (-q) = -fl q := by
  unfold fl
  by_cases h0 : q = 0
  · subst h0; norm_num
  · rw [if_neg (by exact neg_ne_zero.mpr h0), if_neg h0, abs_neg]
    rcases lt_or_gt_of_ne h0 with hq | hq
    · rw [if_neg (not_lt.mpr (le_of_lt (neg_pos.mpr hq))), if_pos hq]
      ring
    · rw [if_pos (neg_neg_of_pos hq), if_neg (not_lt.mpr (le_of_lt hq))]
      ring

theorem fl_idem_pos {q : ℚ} (h0 : 0 < q) : fl (fl q) = fl q := by
  set e := Int.log 2 q with he
  have hcast : ((2 : ℕ) : ℚ) = (2 : ℚ) := by norm_num
  have hlo : (2 : ℚ) ^ e ≤ q := by
    have h := Int.zpow_log_le_self (show (1 : ℕ) < 2 by norm_num) h0
    rw [hcast] at h
    exact h
  have hhi : q < (2 : ℚ) ^ (e + 1) := by
    have h := Int.lt_zpow_succ_log_self (show (1 : ℕ) < 2 by norm_num) q
    rw [hcast] at h
    exact h
  have hflq : fl q = (rhe (q * 2 ^ ((52 : ℤ) - e)) : ℚ) * 2 ^ (e - 52) :=
    fl_eval_pos e h0 hlo hhi
  set s : ℚ := q * 2 ^ ((52 : ℤ) - e) with hs
  set m : ℤ := rhe s with hm
  have hzpos : (0 : ℚ) < 2 ^ ((52 : ℤ) - e) := zpow_pos (by norm_num) _
  have hslo : (2 : ℚ) ^ (52 : ℤ) ≤ s := by
    calc (2 : ℚ) ^ (52 : ℤ) = (2 : ℚ) ^ e * 2 ^ ((52 : ℤ) - e) := by
          rw [← zpow_add₀ (two_ne_zero)]
          congr 1
          ring
      _ ≤ q * 2 ^ ((52 : ℤ) - e) := mul_le_mul_of_nonneg_right hlo (le_of_lt hzpos)
  have hshi : s < (2 : ℚ) ^ (53 : ℤ) := by
    calc s = q * 2 ^ ((52 : ℤ) - e) := hs
      _ < (2 : ℚ) ^ (e + 1) * 2 ^ ((52 : ℤ) - e) := mul_lt_mul_of_pos_right hhi hzpos
      _ = (2 : ℚ) ^ (53 : ℤ) := by
          rw [← zpow_add₀ (two_ne_zero)]
          congr 1
          ring
  have hmlo : (2 : ℤ) ^ 52 ≤ m := by
    have hfl : (2 : ℤ) ^ 52 ≤ ⌊s⌋ := by
      rw [Int.le_floor]
      calc ((2 ^ 52 : ℤ) : ℚ) = (2 : ℚ) ^ (52 : ℤ) := by norm_num
        _ ≤ s := hslo
    exact le_trans hfl (rhe_ge_floor s)
  have hmhi : m ≤ (2 : ℤ) ^ 53 := by
    have hfl : ⌊s⌋ < (2 : ℤ) ^ 53 := by
      rw [Int.floor_lt]
      calc s < (2 : ℚ) ^ (53 : ℤ) := hshi
        _ = ((2 ^ 53 : ℤ) : ℚ) := by norm_num
    have := rhe_le_floor_add_one s
    omega
  rw [hflq]
  rcases lt_or_eq_of_le hmhi with hcase | hcase
  · exact fl_fixed e hmlo hcase
  · rw [hcase]
    have hval : ((2 ^ 53 : ℤ) : ℚ) * 2 ^ (e - 52) =
        ((2 ^ 52 : ℤ) : ℚ) * 2 ^ (e + 1 - 52) := by
      have h53 : ((2 ^ 53 : ℤ) : ℚ) = (2 : ℚ) ^ (53 : ℤ) := by norm_num
      have h52 : ((2 ^ 52 : ℤ) : ℚ) = (2 : ℚ) ^ (52 : ℤ) := by norm_num
      rw [h53, h52, ← zpow_add₀ (two_ne_zero : (2 : ℚ) ≠ 0) 53 (e - 52),
        ← zpow_add₀ (two_ne_zero : (2 : ℚ) ≠ 0) 52 (e + 1 - 52)]
      congr 1
      ring
    rw [hval, fl_fixed (e + 1) (le_refl _) (by norm_num)]

theorem fl_idem (q : ℚ) : fl (fl q) = fl q := by
  rcases lt_trichotomy q 0 with hq | hq | hq
  · have : fl (fl (-(-q))) = fl (-(-q)) := by
      rw [neg_neg]
      rw [show fl q = -fl (-q) by rw [fl_neg, neg_neg]]
      rw [fl_neg, fl_idem_pos (by linarith), ← fl_neg, neg_neg]
    rw [neg_neg] at this
    exact this
  · subst hq; rw [fl_zero, fl_zero]
  · exact fl_idem_pos hq

theorem fpMul_eval_unit {x y : ℚ} (h1 : 1 ≤ x * y) (h2 : x * y < 2) :
    fpMul x y = (rhe (x * y * 2 ^ (52 : ℤ)) : ℚ) * 2 ^ (-52 : ℤ) := by
  unfold fpMul
  have h0 : (0 : ℚ) < x * y := by linarith
  have ha : (2 : ℚ) ^ (0 : ℤ) ≤ x * y := by simpa using h1
  have hb : x * y < (2 : ℚ) ^ ((0 : ℤ) + 1) := by simpa using h2
  have h := fl_eval_pos 0 h0 ha hb
  rw [h]
  norm_num

theorem fl_eq_self_of_dyadic (m e : ℤ) {q : ℚ} (hq : q = (m : ℚ) * 2 ^ (e - 52))
    (hlo : 2 ^ 52 ≤ m) (hhi : m < 2 ^ 53) : fl q = q := by
  rw [hq]
  exact fl_fixed e hlo hhi

theorem fpMul_comm (x y : ℚ) : fpMul x y = fpMul y x := by
  unfold fpMul
  rw [mul_comm]

theorem fpMul_one_left {x : ℚ} (hx : fl x = x) : fpMul 1 x = x := by
  unfold fpMul
  rw [one_mul, hx]

theorem fpMul_one_fpMul (x y : ℚ) : fpMul 1 (fpMul x y) = fpMul x y := by
  unfold fpMul
  rw [one_mul, fl_idem]

theorem fastLoopF_zero (r c : ℚ) : fastLoopF r c 0 = r := by
  rw [fastLoopF]

theorem fastLoopF_odd {e : ℕ} (he : e % 2 = 1) (r c : ℚ) :
    fastLoopF r c e = fastLoopF (fpMul r c) (fpMul c c) (e / 2) := by
  match e, he with
  | e + 1, he =>
    rw [fastLoopF, if_pos he]

theorem fastLoopF_even {e : ℕ} (he : e % 2 = 0) (h0 : e ≠ 0) (r c : ℚ) :
    fastLoopF r c e = fastLoopF r (fpMul c c) (e / 2) := by
  match e, h0 with
  | e + 1, _ =>
    rw [fastLoopF, if_neg (by omega)]

theorem ultraLoopF_exit {e : ℕ} (h : e ≤ 1) (r c : ℚ) :
    ultraLoopF r c e = fpMul r c := by
  rw [ultraLoopF, if_pos h]

theorem ultraLoopF_odd {e : ℕ} (h1 : ¬e ≤ 1) (he : e % 2 = 1) (r c : ℚ) :
    ultraLoopF r c e = ultraLoopF (fpMul r c) (fpMul c c) (e / 2) := by
  rw [ultraLoopF, if_neg h1, if_pos he]

theorem ultraLoopF_even {e : ℕ} (h1 : ¬e ≤ 1) (he : e % 2 = 0) (r c : ℚ) :
    ultraLoopF r c e = ultraLoopF r (fpMul c c) (e / 2) := by
  rw [ultraLoopF, if_neg h1, if_neg (by omega)]

theorem pow_hierarchical_float_zero (b : ℚ) : pow_hierarchical_float b 0 = 1 := by
  rw [pow_hierarchical_float]

theorem pow_hierarchical_float_one (b : ℚ) : pow_hierarchical_float b 1 = b := by
  rw [pow_hierarchical_float]

theorem pow_hierarchical_float_odd {e : ℕ} (h2 : 2 ≤ e) (he : e % 2 = 1) (b : ℚ) :
    pow_hierarchical_float b e =
      fpMul b (pow_hierarchical_float (fpMul b b) (e / 2)) := by
  match e, h2 with
  | e + 2, _ =>
    rw [pow_hierarchical_float]
    rw [if_pos he]

theorem pow_hierarchical_float_even {e : ℕ} (h2 : 2 ≤ e) (he : e % 2 = 0) (b : ℚ) :
    pow_hierarchical_float b e =
      pow_hierarchical_float (fpMul b b) (e / 2) := by
  match e, h2 with
  | e + 2, _ =>
    rw [pow_hierarchical_float]
    rw [if_neg (by omega)]

theorem fastLoopF_eq_ultraLoopF :
    ∀ e : ℕ, 1 ≤ e → ∀ r c : ℚ, fastLoopF r c e = ultraLoopF r c e := by
  intro e
  induction e using Nat.strong_induction_on with
  | _ e ih =>
    intro he r c
    by_cases h1 : e = 1
    · subst h1
      rw [fastLoopF_odd (by norm_num), fastLoopF_zero, ultraLoopF_exit (by norm_num)]
    · have h2 : 2 ≤ e := by omega
      have hdiv1 : 1 ≤ e / 2 := by omega
      have hdivlt : e / 2 < e := Nat.div_lt_self (by omega) one_lt_two
      rcases Nat.even_or_odd e with hev | hev
      · have hm : e % 2 = 0 := Nat.even_iff.mp hev
        rw [fastLoopF_even hm (by omega), ultraLoopF_even (by omega) hm,
          ih (e / 2) hdivlt hdiv1]
      · have hm : e % 2 = 1 := Nat.odd_iff.mp hev
        rw [fastLoopF_odd hm, ultraLoopF_odd (by omega) hm, ih (e / 2) hdivlt hdiv1]

theorem pow_fast_int_fp_eq_ultra {b : ℚ} (hb : fl b = b) (e : ℕ) :
    pow_fast_int_fp b (e : ℤ) = pow_ultra_fast_fp b e := by
  unfold pow_fast_int_fp pow_ultra_fast_fp
  rw [if_neg (by omega)]
  by_cases h0 : e = 0
  · subst h0; norm_num
  rw [if_neg (by omega), if_neg h0]
  by_cases h1 : e = 1
  · subst h1; norm_num
  rw [if_neg (by omega), if_neg h1, Int.toNat_natCast]
  by_cases h2 : e = 2
  · subst h2
    rw [if_pos rfl, fastLoopF_even (by norm_num) (by norm_num)]
    norm_num
    rw [fastLoopF_odd (by norm_num), fastLoopF_zero, fpMul_one_fpMul]
  rw [if_neg h2]
  by_cases h3 : e = 3
  · subst h3
    rw [if_pos rfl, fastLoopF_odd (by norm_num)]
    norm_num
    rw [fastLoopF_odd (by norm_num), fastLoopF_zero, fpMul_one_left hb,
      fpMul_comm]
  rw [if_neg h3]
  by_cases h4 : e = 4
  · subst h4
    rw [if_pos rfl, fastLoopF_even (by norm_num) (by norm_num)]
    norm_num
    rw [fastLoopF_even (by norm_num) (by norm_num)]
    norm_num
    rw [fastLoopF_odd (by norm_num), fastLoopF_zero, fpMul_one_fpMul]
  rw [if_neg h4]
  by_cases h8 : e = 8
  · subst h8
    rw [if_pos rfl, fastLoopF_even (by norm_num) (by norm_num)]
    norm_num
    rw [fastLoopF_even (by norm_num) (by norm_num)]
    norm_num
    rw [fastLoopF_even (by norm_num) (by norm_num)]
    norm_num
    rw [fastLoopF_odd (by norm_num), fastLoopF_zero, fpMul_one_fpMul]
  rw [if_neg h8]
  exact fastLoopF_eq_ultraLoopF e (by omega) 1 b

theorem getD_replicate {α : Type _} (k i : ℕ) (d : α) :
    (List.replicate k d).getD i d = d := by
  induction k generalizing i with
  | zero => simp
  | succ k ih =>
    cases i with
    | zero => simp [List.replicate]
    | succ i => simp [List.replicate, ih]

theorem getD_append_rep {α : Type _} (l : List α) (k i : ℕ) (d : α) :
    (l ++ List.replicate k d).getD i d = l.getD i d := by
  induction l generalizing i with
  | nil => simp [getD_replicate]
  | cons a l ih =>
    cases i with
    | zero => simp
    | succ i => simpa using ih i

theorem getD_set_self {α : Type _} (l : List α) (i : ℕ) (x d : α)
    (h : i < l.length) : (l.set i x).getD i d = x := by
  induction l generalizing i with
  | nil => simp at h
  | cons a l ih =>
    cases i with
    | zero => simp
    | succ i =>
      simp only [List.set]
      simpa using ih i (by simpa using h)

theorem getD_set_ne {α : Type _} (l : List α) {i j : ℕ} (x d : α) (h : i ≠ j) :
    (l.set i x).getD j d = l.getD j d := by
  induction l generalizing i j with
  | nil => simp
  | cons a l ih =>
    cases i with
    | zero =>
      cases j with
      | zero => exact absurd rfl h
      | succ j => simp
    | succ i =>
      cases j with
      | zero => simp
      | succ j =>
        simp only [List.set]
        simpa using ih (by omega)

theorem set_getD_self {α : Type _} (l : List α) (i : ℕ) (d : α)
    (h : i < l.length) : l.set i (l.getD i d) = l := by
  induction l generalizing i with
  | nil => simp
  | cons a l ih =>
    cases i with
    | zero => simp
    | succ i =>
      simp only [List.set, List.getD_cons_succ]
      rw [ih i (by simpa using h)]

theorem length_vecResize {α : Type _} (s : List (List (Option α))) (b : ℕ) :
    b < (vecResize s b).length := by
  unfold vecResize
  split_ifs with h
  · rw [List.length_append, List.length_replicate]
    omega
  · omega

theorem getD_vecResize {α : Type _} (s : List (List (Option α))) (b i : ℕ) :
    (vecResize s b).getD i [] = s.getD i [] := by
  unfold vecResize
  split_ifs with h
  · exact getD_append_rep s (b + 1 - s.length) i []
  · rfl

theorem length_rowResize {α : Type _} (row : List (Option α)) (e : ℕ) :
    e < (rowResize row e).length := by
  unfold rowResize
  split_ifs with h
  · rw [List.length_append, List.length_replicate]
    omega
  · omega

theorem getD_rowResize {α : Type _} (row : List (Option α)) (e i : ℕ) :
    (rowResize row e).getD i none = row.getD i none := by
  unfold rowResize
  split_ifs with h
  · exact getD_append_rep row (e + 1 - row.length) i none
  · rfl

theorem vecCacheCore_scrut {α : Type _} (s : List (List (Option α))) (b e : ℕ) :
    (rowResize ((vecResize s b).getD b []) e).getD e none = vecGet s b e := by
  rw [getD_rowResize, getD_vecResize]
  rfl

theorem vecCacheCore_fst_some {α : Type _} {s : List (List (Option α))}
    {b e : ℕ} {w : α} (h : vecGet s b e = some w) (v : α) :
    (vecCacheCore s b e v).1 = w := by
  unfold vecCacheCore
  rw [vecCacheCore_scrut, h]

theorem vecCacheCore_fst_none {α : Type _} {s : List (List (Option α))}
    {b e : ℕ} (h : vecGet s b e = none) (v : α) :
    (vecCacheCore s b e v).1 = v := by
  unfold vecCacheCore
  rw [vecCacheCore_scrut, h]

theorem vecCacheCore_snd_none {α : Type _} {s : List (List (Option α))}
    {b e : ℕ} (h : vecGet s b e = none) (v : α) :
    (vecCacheCore s b e v).2 =
      (vecResize s b).set b
        ((rowResize ((vecResize s b).getD b []) e).set e (some v)) := by
  unfold vecCacheCore
  rw [vecCacheCore_scrut, h]

theorem vecCacheCore_snd_some {α : Type _} {s : List (List (Option α))}
    {b e : ℕ} {w : α} (h : vecGet s b e = some w) (v : α) :
    (vecCacheCore s b e v).2 =
      (vecResize s b).set b (rowResize ((vecResize s b).getD b []) e) := by
  unfold vecCacheCore
  rw [vecCacheCore_scrut, h]

theorem vecGet_vecCacheCore {α : Type _} (s : List (List (Option α)))
    (b e : ℕ) (v : α) (b' e' : ℕ) :
    vecGet (vecCacheCore s b e v).2 b' e' =
      if b' = b ∧ e' = e then some ((vecCacheCore s b e v).1)
      else vecGet s b' e' := by
  rcases hget : vecGet s b e with _ | w
  · rw [vecCacheCore_fst_none hget, vecCacheCore_snd_none hget]
    by_cases hb : b' = b
    · subst hb
      by_cases he : e' = e
      · subst he
        rw [if_pos ⟨rfl, rfl⟩]
        unfold vecGet
        rw [getD_set_self _ _ _ _ (length_vecResize s b'),
          getD_set_self _ _ _ _ (length_rowResize _ e')]
      · rw [if_neg (by tauto)]
        unfold vecGet
        rw [getD_set_self _ _ _ _ (length_vecResize s b'),
          getD_set_ne _ _ _ (by omega), getD_rowResize, getD_vecResize]
    · rw [if_neg (by tauto)]
      unfold vecGet
      rw [getD_set_ne _ _ _ (by omega), getD_vecResize]
  · rw [vecCacheCore_fst_some hget, vecCacheCore_snd_some hget]
    by_cases hb : b' = b
    · subst hb
      by_cases he : e' = e
      · subst he
        rw [if_pos ⟨rfl, rfl⟩]
        unfold vecGet
        rw [getD_set_self _ _ _ _ (length_vecResize s b'), getD_rowResize,
          getD_vecResize]
        exact hget
      · rw [if_neg (by tauto)]
        unfold vecGet
        rw [getD_set_self _ _ _ _ (length_vecResize s b'), getD_rowResize,
          getD_vecResize]
    · rw [if_neg (by tauto)]
      unfold vecGet
      rw [getD_set_ne _ _ _ (by omega), getD_vecResize]

theorem vecCacheCore_run_hit {α : Type _} {s : List (List (Option α))}
    {b e : ℕ} {w : α} (hget : vecGet s b e = some w) (hb : b < s.length)
    (he : e < (s.getD b []).length) (v : α) : vecCacheCore s b e v = (w, s) := by
  have hs1 : vecResize s b = s := by
    unfold vecResize
    rw [if_neg (by omega)]
  have hrow : rowResize (s.getD b []) e = s.getD b [] := by
    unfold rowResize
    rw [if_neg (by omega)]
  unfold vecCacheCore
  rw [vecCacheCore_scrut, hget, hs1, hrow]
  rw [set_getD_self s b [] hb]

theorem vecCacheCore_state_len {α : Type _} (s : List (List (Option α)))
    (b e : ℕ) (v : α) :
    b < (vecCacheCore s b e v).2.length ∧
      e < ((vecCacheCore s b e v).2.getD b []).length := by
  rcases hget : vecGet s b e with _ | w
  · rw [vecCacheCore_snd_none hget]
    constructor
    · simpa [List.length_set] using length_vecResize s b
    · rw [getD_set_self _ _ _ _ (length_vecResize s b), List.length_set]
      exact length_rowResize _ e
  · rw [vecCacheCore_snd_some hget]
    constructor
    · simpa [List.length_set] using length_vecResize s b
    · rw [getD_set_self _ _ _ _ (length_vecResize s b)]
      exact length_rowResize _ e

theorem vecCacheCore_idem {α : Type _} (s : List (List (Option α)))
    (b e : ℕ) (v v' : α) :
    vecCacheCore (vecCacheCore s b e v).2 b e v' =
      ((vecCacheCore s b e v).1, (vecCacheCore s b e v).2) := by
  have hget : vecGet (vecCacheCore s b e v).2 b e =
      some ((vecCacheCore s b e v).1) := by
    rw [vecGet_vecCacheCore, if_pos ⟨rfl, rfl⟩]
  obtain ⟨hb, he⟩ := vecCacheCore_state_len s b e v
  exact vecCacheCore_run_hit hget hb he v'

theorem mapFind_good {f : ℚ → ℤ → ℚ} {s : List ((ℚ × ℤ) × ℚ)}
    (hgood : MapGood f s) {b : ℚ} {e : ℤ} {v : ℚ}
    (h : mapFind (b, e) s = some v) : v = f b e := by
  induction s with
  | nil => simp [mapFind] at h
  | cons kv rest ih =>
    rw [mapFind] at h
    split_ifs at h with hk
    · have hv : kv.2 = v := by injection h
      have hg := hgood kv (by simp)
      rw [← hv, hg, hk]
    · exact ih (fun q hq => hgood q (List.mem_cons_of_mem _ hq)) h

theorem pow_cached_map_fst {f : ℚ → ℤ → ℚ} {s : List ((ℚ × ℤ) × ℚ)}
    (hgood : MapGood f s) (b : ℚ) (e : ℤ) :
    (pow_cached_map f s b e).1 = f b e := by
  unfold pow_cached_map
  rcases h : mapFind (b, e) s with _ | v
  · rfl
  · exact mapFind_good hgood h

theorem pow_cached_map_good {f : ℚ → ℤ → ℚ} {s : List ((ℚ × ℤ) × ℚ)}
    (hgood : MapGood f s) (b : ℚ) (e : ℤ) :
    MapGood f (pow_cached_map f s b e).2 := by
  unfold pow_cached_map
  rcases h : mapFind (b, e) s with _ | v
  · intro kv hkv
    rcases List.mem_cons.mp hkv with hh | hm
    · rw [hh]
    · exact hgood kv hm
  · exact hgood

theorem reachableMap_good {f : ℚ → ℤ → ℚ} {s : List ((ℚ × ℤ) × ℚ)}
    (h : ReachableMap f s) : MapGood f s := by
  induction h with
  | empty => intro kv hkv; simp at hkv
  | step s b e _ ih => exact pow_cached_map_good ih b e

theorem mapFind_after (f : ℚ → ℤ → ℚ) (s : List ((ℚ × ℤ) × ℚ)) (b : ℚ) (e : ℤ) :
    mapFind (b, e) (pow_cached_map f s b e).2 =
      some ((pow_cached_map f s b e).1) := by
  unfold pow_cached_map
  rcases h : mapFind (b, e) s with _ | v
  · rw [mapFind, if_pos rfl]
  · exact h

theorem pow_cached_map_idem (f : ℚ → ℤ → ℚ) (s : List ((ℚ × ℤ) × ℚ))
    (b : ℚ) (e : ℤ) :
    pow_cached_map f (pow_cached_map f s b e).2 b e =
      ((pow_cached_map f s b e).1, (pow_cached_map f s b e).2) := by
  conv_lhs => rw [pow_cached_map]
  rw [mapFind_after]

/-- The flat unordered-map kernel has the same lookup/insert semantics as the
ordered-map kernel (the containers differ only in their hashing). -/
theorem pair_eq_map : pow_cached_unordered_pair = pow_cached_map := rfl

theorem reachablePair_good {f : ℚ → ℤ → ℚ} {s : List ((ℚ × ℤ) × ℚ)}
    (h : ReachablePair f s) : MapGood f s := by
  induction h with
  | empty => intro kv hkv; simp at hkv
  | step s b e _ ih =>
    rw [pair_eq_map]
    exact pow_cached_map_good ih b e

theorem pow_cached_unordered_nested_eq (f : ℚ → ℤ → ℚ)
    (c : List (ℚ × List (ℤ × ℚ))) (b : ℚ) (e : ℤ) :
    pow_cached_unordered_nested f c b e =
      match nestedFind b e c with
      | some v => (v, c)
      | none => (f b e, nestedInsert b e (f b e) c) := by
  unfold pow_cached_unordered_nested nestedFind
  rcases houter : outerFind b c with _ | inner
  · rfl
  · rcases hinner : innerFind e inner with _ | v <;> rfl

theorem outerFind_mem {b : ℚ} {c : List (ℚ × List (ℤ × ℚ))}
    {inner : List (ℤ × ℚ)} (h : outerFind b c = some inner) :
    ∃ p ∈ c, p.1 = b ∧ p.2 = inner := by
  induction c with
  | nil => simp [outerFind] at h
  | cons p rest ih =>
    rw [outerFind] at h
    split_ifs at h with hk
    · exact ⟨p, by simp, hk, by injection h⟩
    · obtain ⟨q, hq, hqb, hqi⟩ := ih h
      exact ⟨q, List.mem_cons_of_mem _ hq, hqb, hqi⟩

theorem innerFind_mem {e : ℤ} {inner : List (ℤ × ℚ)} {v : ℚ}
    (h : innerFind e inner = some v) : ∃ q ∈ inner, q.1 = e ∧ q.2 = v := by
  induction inner with
  | nil => simp [innerFind] at h
  | cons q rest ih =>
    rw [innerFind] at h
    split_ifs at h with hk
    · exact ⟨q, by simp, hk, by injection h⟩
    · obtain ⟨q', hq, hqe, hqv⟩ := ih h
      exact ⟨q', List.mem_cons_of_mem _ hq, hqe, hqv⟩

theorem nestedFind_good {f : ℚ → ℤ → ℚ} {c : List (ℚ × List (ℤ × ℚ))}
    (hgood : NestedGood f c) {b : ℚ} {e : ℤ} {v : ℚ}
    (h : nestedFind b e c = some v) : v = f b e := by
  unfold nestedFind at h
  rcases houter : outerFind b c with _ | inner <;> rw [houter] at h
  · simp at h
  · obtain ⟨p, hp, hpb, hpi⟩ := outerFind_mem houter
    obtain ⟨q, hq, hqe, hqv⟩ := innerFind_mem h
    have hg := hgood p hp q (by rw [hpi]; exact hq)
    rw [← hqv, hg, hpb, hqe]

theorem nestedInsert_good {f : ℚ → ℤ → ℚ} {c : List (ℚ × List (ℤ × ℚ))}
    (hgood : NestedGood f c) (b : ℚ) (e : ℤ) :
    NestedGood f (nestedInsert b e (f b e) c) := by
  induction c with
  | nil =>
    intro p hp q hq
    simp only [nestedInsert, List.mem_singleton] at hp
    rw [hp] at hq ⊢
    simp only [List.mem_singleton] at hq
    rw [hq]
  | cons p0 rest ih =>
    intro p hp q hq
    rw [nestedInsert] at hp
    split_ifs at hp with hk
    · rcases List.mem_cons.mp hp with hh | hm
      · rw [hh] at hq ⊢
        rcases List.mem_cons.mp hq with hh2 | hm2
        · rw [hh2]
          rw [hk]
        · exact hgood p0 (by simp) q hm2
      · exact hgood p (List.mem_cons_of_mem _ hm) q hq
    · rcases List.mem_cons.mp hp with hh | hm
      · rw [hh] at hq ⊢
        exact hgood p0 (by simp) q hq
      · exact ih (fun p' hp' q' hq' => hgood p' (List.mem_cons_of_mem _ hp') q' hq') p hm q hq

theorem pow_cached_unordered_nested_fst {f : ℚ → ℤ → ℚ}
    {c : List (ℚ × List (ℤ × ℚ))} (hgood : NestedGood f c) (b : ℚ) (e : ℤ) :
    (pow_cached_unordered_nested f c b e).1 = f b e := by
  rw [pow_cached_unordered_nested_eq]
  rcases h : nestedFind b e c with _ | v
  · rfl
  · exact nestedFind_good hgood h

theorem pow_cached_unordered_nested_good {f : ℚ → ℤ → ℚ}
    {c : List (ℚ × List (ℤ × ℚ))} (hgood : NestedGood f c) (b : ℚ) (e : ℤ) :
    NestedGood f (pow_cached_unordered_nested f c b e).2 := by
  rw [pow_cached_unordered_nested_eq]
  rcases h : nestedFind b e c with _ | v
  · exact nestedInsert_good hgood b e
  · exact hgood

theorem reachableNested_good {f : ℚ → ℤ → ℚ} {c : List (ℚ × List (ℤ × ℚ))}
    (h : ReachableNested f c) : NestedGood f c := by
  induction h with
  | empty => intro p hp; simp at hp
  | step s b e _ ih => exact pow_cached_unordered_nested_good ih b e

theorem nestedFind_insert (b : ℚ) (e : ℤ) (v : ℚ)
    (c : List (ℚ × List (ℤ × ℚ))) :
    nestedFind b e (nestedInsert b e v c) = some v := by
  induction c with
  | nil => simp [nestedInsert, nestedFind, outerFind, innerFind]
  | cons p rest ih =>
    rw [nestedInsert]
    split_ifs with hk
    · unfold nestedFind outerFind
      rw [if_pos hk]
      simp [innerFind]
    · unfold nestedFind outerFind
      rw [if_neg hk]
      exact ih

theorem pow_cached_unordered_nested_idem (f : ℚ → ℤ → ℚ)
    (c : List (ℚ × List (ℤ × ℚ))) (b : ℚ) (e : ℤ) :
    pow_cached_unordered_nested f (pow_cached_unordered_nested f c b e).2 b e =
      ((pow_cached_unordered_nested f c b e).1,
        (pow_cached_unordered_nested f c b e).2) := by
  rw [pow_cached_unordered_nested_eq f c b e]
  rcases h : nestedFind b e c with _ | v
  · rw [pow_cached_unordered_nested_eq, nestedFind_insert]
  · rw [pow_cached_unordered_nested_eq, h]

theorem pow_cached_static_array_fst {s : StaticCache} (hgood : StaticGood s)
    (b : ℤ) (e : ℕ) :
    (pow_cached_static_array s b e).1 = pow_hierarchical_int b e := by
  unfold pow_cached_static_array
  split_ifs with hin hflag
  · have hv := hgood b.toNat e hflag
    rw [hv, Int.toNat_of_nonneg hin.1]
  · rfl
  · rfl

theorem pow_cached_static_array_good {s : StaticCache} (hgood : StaticGood s)
    (b : ℤ) (e : ℕ) : StaticGood (pow_cached_static_array s b e).2 := by
  unfold pow_cached_static_array
  split_ifs with hin hflag
  · exact hgood
  · intro b' e' hf
    simp only at hf ⊢
    by_cases hc : b' = b.toNat ∧ e' = e
    · rw [if_pos hc]
      rw [hc.1, hc.2, Int.toNat_of_nonneg hin.1]
    · rw [if_neg hc]
      rw [if_neg hc] at hf
      exact hgood b' e' hf
  · exact hgood

theorem reachableStatic_good {s : StaticCache} (h : ReachableStatic s) :
    StaticGood s := by
  induction h with
  | empty => intro b e hf; simp [staticInit] at hf
  | step s b e _ ih => exact pow_cached_static_array_good ih b e

theorem pow_cached_static_array_idem (s : StaticCache) (b : ℤ) (e : ℕ) :
    pow_cached_static_array (pow_cached_static_array s b e).2 b e =
      ((pow_cached_static_array s b e).1,
        (pow_cached_static_array s b e).2) := by
  by_cases hin : 0 ≤ b ∧ b.toNat < 16 ∧ e < 16
  · by_cases hflag : s.flags b.toNat e = true
    · have h1 : pow_cached_static_array s b e = (s.values b.toNat e, s) := by
        unfold pow_cached_static_array
        rw [if_pos hin, if_pos hflag]
      rw [h1]
      exact h1
    · have h1 : pow_cached_static_array s b e =
          (pow_hierarchical_int b e,
            { values := fun i j =>
                if i = b.toNat ∧ j = e then pow_hierarchical_int b e
                else s.values i j
              flags := fun i j =>
                if i = b.toNat ∧ j = e then true else s.flags i j }) := by
        unfold pow_cached_static_array
        rw [if_pos hin, if_neg hflag]
      rw [h1]
      unfold pow_cached_static_array
      rw [if_pos hin]
      rw [if_pos (by simp)]
      simp
  · have h1 : pow_cached_static_array s b e = (pow_hierarchical_int b e, s) := by
      unfold pow_cached_static_array
      rw [if_neg hin]
    rw [h1]
    exact h1

theorem vecCacheCore_fst_int {s : List (List (Option ℤ))} (hgood : VecIntGood s)
    {b : ℤ} (hb : ¬b < 0) (e : ℕ) :
    (vecCacheCore s b.toNat e (pow_hierarchical_int b e)).1 =
      pow_hierarchical_int b e := by
  rcases h : vecGet s b.toNat e with _ | w
  · rw [vecCacheCore_fst_none h]
  · rw [vecCacheCore_fst_some h]
    have hg := hgood b.toNat e w h
    rw [hg, Int.toNat_of_nonneg (by omega)]

theorem pow_cached_vector_optional_int_fst {s : List (List (Option ℤ))}
    (hgood : VecIntGood s) (b : ℤ) (e : ℕ) :
    (pow_cached_vector_optional_int s b e).1 = pow_hierarchical_int b e := by
  unfold pow_cached_vector_optional_int
  split_ifs with hneg
  · rfl
  · exact vecCacheCore_fst_int hgood hneg e

theorem pow_cached_vector_optional_int_good {s : List (List (Option ℤ))}
    (hgood : VecIntGood s) (b : ℤ) (e : ℕ) :
    VecIntGood (pow_cached_vector_optional_int s b e).2 := by
  unfold pow_cached_vector_optional_int
  split_ifs with hneg
  · exact hgood
  · intro b' e' v hv
    rw [vecGet_vecCacheCore] at hv
    split_ifs at hv with hc
    · have hv2 : v = (vecCacheCore s b.toNat e (pow_hierarchical_int b e)).1 := by
        injection hv
        omega
      rw [hv2, vecCacheCore_fst_int hgood hneg e, hc.1, hc.2,
        Int.toNat_of_nonneg (by omega)]
    · exact hgood b' e' v hv

theorem reachableVecInt_good {s : List (List (Option ℤ))}
    (h : ReachableVecInt s) : VecIntGood s := by
  induction h with
  | empty => intro b e v hv; simp [vecGet] at hv
  | step s b e _ ih => exact pow_cached_vector_optional_int_good ih b e

theorem pow_cached_vector_optional_int_idem (s : List (List (Option ℤ)))
    (b : ℤ) (e : ℕ) :
    pow_cached_vector_optional_int (pow_cached_vector_optional_int s b e).2 b e =
      ((pow_cached_vector_optional_int s b e).1,
        (pow_cached_vector_optional_int s b e).2) := by
  by_cases hneg : b < 0
  · have h1 : pow_cached_vector_optional_int s b e = (pow_hierarchical_int b e, s) := by
      unfold pow_cached_vector_optional_int
      rw [if_pos hneg]
    rw [h1]
    exact h1
  · have h1 : pow_cached_vector_optional_int s b e =
        vecCacheCore s b.toNat e (pow_hierarchical_int b e) := by
      unfold pow_cached_vector_optional_int
      rw [if_neg hneg]
    have h2 : pow_cached_vector_optional_int
        (vecCacheCore s b.toNat e (pow_hierarchical_int b e)).2 b e =
        vecCacheCore (vecCacheCore s b.toNat e (pow_hierarchical_int b e)).2
          b.toNat e (pow_hierarchical_int b e) := by
      unfold pow_cached_vector_optional_int
      rw [if_neg hneg]
    rw [h1, h2, vecCacheCore_idem]

theorem pow_vec_cached_float_fst_zero {s : List (List (Option ℚ))}
    (hgood : VecFloatZeroGood s) (b : ℚ) :
    (pow_vec_cached_float s b 0).1 = 1 := by
  unfold pow_vec_cached_float
  rcases h : vecGet s (⌊|b| * 1000⌋).toNat 0 with _ | w
  · rw [vecCacheCore_fst_none h]
    exact pow_hierarchical_float_zero b
  · rw [vecCacheCore_fst_some h]
    exact hgood _ w h

theorem pow_vec_cached_float_zero_good {s : List (List (Option ℚ))}
    (hgood : VecFloatZeroGood s) (b : ℚ) (e : ℕ) :
    VecFloatZeroGood (pow_vec_cached_float s b e).2 := by
  unfold pow_vec_cached_float
  intro b' v hv
  rw [vecGet_vecCacheCore] at hv
  split_ifs at hv with hc
  · obtain ⟨hcb, hce⟩ := hc
    subst hce
    have hv2 : (vecCacheCore s (⌊|b| * 1000⌋).toNat 0
        (pow_hierarchical_float b 0)).1 = v := by
      injection hv
    rcases h : vecGet s (⌊|b| * 1000⌋).toNat 0 with _ | w
    · rw [vecCacheCore_fst_none h] at hv2
      rw [← hv2]
      exact pow_hierarchical_float_zero b
    · rw [vecCacheCore_fst_some h] at hv2
      rw [← hv2]
      exact hgood _ w h
  · exact hgood b' v hv

theorem reachableVecFloat_zero_good {s : List (List (Option ℚ))}
    (h : ReachableVecFloat s) : VecFloatZeroGood s := by
  induction h with
  | empty => intro b v hv; simp [vecGet] at hv
  | step s b e _ ih => exact pow_vec_cached_float_zero_good ih b e

theorem pow_vec_cached_float_fst_fresh {s : List (List (Option ℚ))} {b : ℚ}
    {e : ℕ} (h : vecGet s (⌊|b| * 1000⌋).toNat e = none) :
    (pow_vec_cached_float s b e).1 = pow_hierarchical_float b e := by
  unfold pow_vec_cached_float
  rw [vecCacheCore_fst_none h]

theorem pow_vec_cached_float_idem (s : List (List (Option ℚ))) (b : ℚ) (e : ℕ) :
    pow_vec_cached_float (pow_vec_cached_float s b e).2 b e =
      ((pow_vec_cached_float s b e).1, (pow_vec_cached_float s b e).2) := by
  unfold pow_vec_cached_float
  exact vecCacheCore_idem s _ e _ _

theorem pow_fast_int_zero_exp {R : Type _} [CommRing R] (b : R) :
    pow_fast_int b 0 = 1 := by
  unfold pow_fast_int
  norm_num

theorem pow_fast_int_neg_exp {R : Type _} [CommRing R] (b : R) {e : ℤ}
    (he : e < 0) : pow_fast_int b e = 0 := by
  unfold pow_fast_int
  rw [if_pos he]

theorem pow_fast_int_fp_zero_exp (b : ℚ) : pow_fast_int_fp b 0 = 1 := by
  unfold pow_fast_int_fp
  norm_num

theorem pow_fast_int_fp_neg_exp (b : ℚ) {e : ℤ} (he : e < 0) :
    pow_fast_int_fp b e = 0 := by
  unfold pow_fast_int_fp
  rw [if_pos he]

theorem pow_ultra_fast_fp_zero_exp (b : ℚ) : pow_ultra_fast_fp b 0 = 1 := by
  unfold pow_ultra_fast_fp
  norm_num

theorem fpMul_eval_dyadic {x y : ℚ} (m e : ℤ) (hq : x * y = (m : ℚ) * 2 ^ (e - 52))
    (hlo : 2 ^ 52 ≤ m) (hhi : m < 2 ^ 53) : fpMul x y = x * y := by
  unfold fpMul
  exact fl_eq_self_of_dyadic m e hq hlo hhi

theorem binomCoef23_succ (k : ℕ) :
    binomCoef23 (k + 1) = binomCoef23 k * ((2 / 3 - (k : ℚ)) / ((k : ℚ) + 1)) := by
  unfold binomCoef23
  rw [Finset.prod_range_succ]

theorem seriesLoop_eq (z : ℚ) :
    ∀ (n k : ℕ) (sum : ℚ),
      seriesLoop z (k + 1) n sum (binomCoef23 k * z ^ k) =
        sum + ∑ i ∈ Finset.range n, binomCoef23 (k + 1 + i) * z ^ (k + 1 + i) := by
  intro n
  induction n with
  | zero => intro k sum; simp [seriesLoop]
  | succ n ih =>
    intro k sum
    rw [seriesLoop]
    have hterm : binomCoef23 k * z ^ k * ((2 / 3 - ((k : ℚ) + 1) + 1) / ((k : ℚ) + 1) * z) =
        binomCoef23 (k + 1) * z ^ (k + 1) := by
      rw [binomCoef23_succ, pow_succ]
      ring
    have hcast : ((k + 1 : ℕ) : ℚ) = (k : ℚ) + 1 := by push_cast; ring
    rw [hcast, hterm, ih (k + 1)]
    rw [Finset.sum_range_succ' (fun i => binomCoef23 (k + 1 + i) * z ^ (k + 1 + i)) n]
    have hidx : ∀ i : ℕ, k + 1 + 1 + i = k + 1 + (i + 1) := by omega
    rw [add_assoc]
    congr 1
    rw [add_comm]
    congr 1
    apply Finset.sum_congr rfl
    intro i _
    rw [hidx i]

theorem seriesLoop_sum (z : ℚ) :
    seriesLoop z 1 9 1 1 = ∑ k ∈ Finset.range 10, binomCoef23 k * z ^ k := by
  have h0 : binomCoef23 0 * z ^ 0 = 1 := by simp [binomCoef23]
  have h := seriesLoop_eq z 9 0 1
  rw [h0] at h
  rw [h]
  rw [Finset.sum_range_succ' (fun k => binomCoef23 k * z ^ k) 9]
  rw [h0, add_comm]
  have hsum : ∀ i : ℕ, binomCoef23 (0 + 1 + i) * z ^ (0 + 1 + i) =
      binomCoef23 (i + 1) * z ^ (i + 1) := by
    intro i
    have hi : 0 + 1 + i = i + 1 := by omega
    rw [hi]
  exact congrArg₂ HAdd.hAdd (Finset.sum_congr rfl (fun i _ => hsum i)) rfl

theorem pow_2_3_series_neg (cbrtf : ℚ → ℚ) (powf : ℚ → ℚ → ℚ) {base : ℚ}
    (h : base < 0) : pow_2_3_series cbrtf powf base = none := by
  unfold pow_2_3_series
  rw [if_neg (ne_of_lt h), if_pos h]

theorem pow_2_3_exp_log_neg (logf expf : ℚ → ℚ) {q : ℚ} (h : q < 0) :
    pow_2_3_exp_log logf expf (.fin q) = .nan := by
  have hl : logFd logf (.fin q) = .nan := by
    simp only [logFd]
    rw [if_neg (not_lt.mpr (le_of_lt h)), if_neg (ne_of_lt h)]
  unfold pow_2_3_exp_log
  rw [hl]
  rfl

theorem pow_2_3_cbrt_fin (cbrtf : ℚ → ℚ) (q : ℚ) :
    pow_2_3_cbrt cbrtf (.fin q) = .fin (cbrtf (q * q)) := rfl

theorem flB : fl (2476979795053773 / 2251799813685248 : ℚ) =
    2476979795053773 / 2251799813685248 :=
  fl_eq_self_of_dyadic 4953959590107546 0 (by norm_num) (by norm_num) (by norm_num)

theorem fpB2 : fpMul (2476979795053773 / 2251799813685248 : ℚ)
    (2476979795053773 / 2251799813685248) = 5449355549118301 / 4503599627370496 := by
  rw [fpMul_eval_unit (by norm_num) (by norm_num)]
  norm_num [rhe]

theorem fpB3 : fpMul (2476979795053773 / 2251799813685248 : ℚ)
    (5449355549118301 / 4503599627370496) = 1498572776007533 / 1125899906842624 := by
  rw [fpMul_eval_unit (by norm_num) (by norm_num)]
  norm_num [rhe]

theorem fpB4 : fpMul (5449355549118301 / 4503599627370496 : ℚ)
    (5449355549118301 / 4503599627370496) = 6593720214433145 / 4503599627370496 := by
  rw [fpMul_eval_unit (by norm_num) (by norm_num)]
  norm_num [rhe]

theorem fpB7fast : fpMul (1498572776007533 / 1125899906842624 : ℚ)
    (6593720214433145 / 4503599627370496) = 8776241605410519 / 4503599627370496 := by
  rw [fpMul_eval_unit (by norm_num) (by norm_num)]
  norm_num [rhe]

theorem fpB6 : fpMul (5449355549118301 / 4503599627370496 : ℚ)
    (6593720214433145 / 4503599627370496) = 7978401459464107 / 4503599627370496 := by
  rw [fpMul_eval_unit (by norm_num) (by norm_num)]
  norm_num [rhe]

theorem fpB7hier : fpMul (2476979795053773 / 2251799813685248 : ℚ)
    (7978401459464107 / 4503599627370496) = 4388120802705259 / 2251799813685248 := by
  rw [fpMul_eval_unit (by norm_num) (by norm_num)]
  norm_num [rhe]

theorem fast_at_b7 : pow_fast_int_fp (2476979795053773 / 2251799813685248 : ℚ) 7 =
    8776241605410519 / 4503599627370496 := by
  unfold pow_fast_int_fp
  rw [if_neg (by norm_num), if_neg (by norm_num), if_neg (by norm_num)]
  rw [show ((7 : ℤ)).toNat = 7 from rfl]
  rw [fastLoopF_odd (by norm_num), show (7 : ℕ) / 2 = 3 from rfl]
  rw [fpMul_one_left flB, fpB2]
  rw [fastLoopF_odd (by norm_num), show (3 : ℕ) / 2 = 1 from rfl]
  rw [fpB3, fpB4]
  rw [fastLoopF_odd (by norm_num), show (1 : ℕ) / 2 = 0 from rfl, fastLoopF_zero]
  exact fpB7fast

theorem hier_at_b7 : pow_hierarchical_float (2476979795053773 / 2251799813685248 : ℚ) 7 =
    4388120802705259 / 2251799813685248 := by
  rw [pow_hierarchical_float_odd (by norm_num) (by norm_num),
    show (7 : ℕ) / 2 = 3 from rfl]
  rw [fpB2]
  rw [pow_hierarchical_float_odd (by norm_num) (by norm_num),
    show (3 : ℕ) / 2 = 1 from rfl]
  rw [pow_hierarchical_float_one, fpB4, fpB6]
  exact fpB7hier

theorem fpSqPos : fpMul (1 / 256 : ℚ) (1 / 256) = 1 / 65536 := by
  rw [fpMul_eval_dyadic 4503599627370496 (-16) (by norm_num) (by norm_num)
    (by norm_num)]
  norm_num

theorem fpSqNeg : fpMul (-(1 / 256) : ℚ) (-(1 / 256)) = 1 / 65536 := by
  rw [fpMul_eval_dyadic 4503599627370496 (-16) (by norm_num) (by norm_num)
    (by norm_num)]
  norm_num

theorem fpCubePos : fpMul (1 / 256 : ℚ) (1 / 65536) = 1 / 16777216 := by
  rw [fpMul_eval_dyadic 4503599627370496 (-24) (by norm_num) (by norm_num)
    (by norm_num)]
  norm_num

theorem fpCubeNeg : fpMul (-(1 / 256) : ℚ) (1 / 65536) = -(1 / 16777216) := by
  unfold fpMul
  rw [show (-(1 / 256) : ℚ) * (1 / 65536) = -(1 / 16777216) by norm_num, fl_neg]
  rw [fl_eq_self_of_dyadic 4503599627370496 (-24) (by norm_num) (by norm_num)
    (by norm_num)]

theorem hier_at_pos : pow_hierarchical_float (1 / 256 : ℚ) 3 = 1 / 16777216 := by
  rw [pow_hierarchical_float_odd (by norm_num) (by norm_num),
    show (3 : ℕ) / 2 = 1 from rfl]
  rw [fpSqPos, pow_hierarchical_float_one]
  exact fpCubePos

theorem hier_at_neg : pow_hierarchical_float (-(1 / 256) : ℚ) 3 = -(1 / 16777216) := by
  rw [pow_hierarchical_float_odd (by norm_num) (by norm_num),
    show (3 : ℕ) / 2 = 1 from rfl]
  rw [fpSqNeg, pow_hierarchical_float_one]
  exact fpCubeNeg

theorem keyPos : ((⌊|(1 / 256 : ℚ)| * 1000⌋).toNat) = 3 := by
  have h : ⌊|(1 / 256 : ℚ)| * 1000⌋ = 3 := by
    rw [show |(1 / 256 : ℚ)| = 1 / 256 by norm_num]
    norm_num
  rw [h]
  rfl

theorem keyNeg : ((⌊|(-(1 / 256) : ℚ)| * 1000⌋).toNat) = 3 := by
  have h : ⌊|(-(1 / 256) : ℚ)| * 1000⌋ = 3 := by
    rw [show |(-(1 / 256) : ℚ)| = 1 / 256 by norm_num]
    norm_num
  rw [h]
  rfl

/-- C1 counterexample: from the reachable state produced by one call of
`pow_vec_cached_float` at `(1/256, 3)`, the call at `(-1/256, 3)` returns
the cached value `2^-24` of the other base (the two bases collide on the
discretised key `⌊1000·|base|⌋ = 3`), not the reference hierarchical value
`-2^-24`; caching changes the observable result. -/
theorem C1_counterexample :
    ReachableVecFloat ((pow_vec_cached_float [] (1 / 256) 3).2) ∧
    (pow_vec_cached_float ((pow_vec_cached_float [] (1 / 256) 3).2)
        (-(1 / 256)) 3).1 ≠
      pow_hierarchical_float (-(1 / 256)) 3 := by
  constructor
  · exact ReachableVecFloat.step [] (1 / 256) 3 ReachableVecFloat.empty
  · have hget : vecGet ((pow_vec_cached_float [] (1 / 256) 3).2) 3 3 =
        some (1 / 16777216) := by
      unfold pow_vec_cached_float
      rw [keyPos, vecGet_vecCacheCore, if_pos ⟨rfl, rfl⟩,
        vecCacheCore_fst_none (by simp [vecGet]), hier_at_pos]
    have hsecond : (pow_vec_cached_float ((pow_vec_cached_float [] (1 / 256) 3).2)
        (-(1 / 256)) 3).1 = 1 / 16777216 := by
      conv_lhs => rw [pow_vec_cached_float]
      rw [keyNeg, vecCacheCore_fst_some hget]
    rw [hsecond, hier_at_neg]
    norm_num

/-- C1 (amended): starting from any reachable cache state, the five caches
whose key determines the operand pair exactly (`pow_cached_map`,
`pow_cached_unordered_nested`, `pow_cached_unordered_pair`,
`pow_cached_vector_optional_int`, `pow_cached_static_array`) return exactly
the value of the corresponding uncached reference computation (`std::pow`,
modelled by the parameter `f`, for the double-keyed caches; the hierarchical
kernel for the integer vector/array caches); `pow_vec_cached_float` returns
the hierarchical kernel's value only when its discretised key slot
`(⌊1000·|base|⌋, exp)` holds no cached entry — an entry cached by a
different base with the same key is returned instead. -/
theorem C1_cached_refinement :
    (∀ (f : ℚ → ℤ → ℚ) (s : List ((ℚ × ℤ) × ℚ)), ReachableMap f s →
      ∀ (b : ℚ) (e : ℤ), (pow_cached_map f s b e).1 = f b e) ∧
    (∀ (f : ℚ → ℤ → ℚ) (s : List ((ℚ × ℤ) × ℚ)), ReachablePair f s →
      ∀ (b : ℚ) (e : ℤ), (pow_cached_unordered_pair f s b e).1 = f b e) ∧
    (∀ (f : ℚ → ℤ → ℚ) (c : List (ℚ × List (ℤ × ℚ))), ReachableNested f c →
      ∀ (b : ℚ) (e : ℤ), (pow_cached_unordered_nested f c b e).1 = f b e) ∧
    (∀ s : List (List (Option ℤ)), ReachableVecInt s →
      ∀ (b : ℤ) (e : ℕ),
        (pow_cached_vector_optional_int s b e).1 = pow_hierarchical_int b e) ∧
    (∀ s : StaticCache, ReachableStatic s →
      ∀ (b : ℤ) (e : ℕ),
        (pow_cached_static_array s b e).1 = pow_hierarchical_int b e) ∧
    (∀ (s : List (List (Option ℚ))) (b : ℚ) (e : ℕ),
      vecGet s (⌊|b| * 1000⌋).toNat e = none →
      (pow_vec_cached_float s b e).1 = pow_hierarchical_float b e) := by
  refine ⟨?_, ?_, ?_, ?_, ?_, ?_⟩
  · intro f s h b e
    exact pow_cached_map_fst (reachableMap_good h) b e
  · intro f s h b e
    rw [pair_eq_map]
    exact pow_cached_map_fst (reachablePair_good h) b e
  · intro f c h b e
    exact pow_cached_unordered_nested_fst (reachableNested_good h) b e
  · intro s h b e
    exact pow_cached_vector_optional_int_fst (reachableVecInt_good h) b e
  · intro s h b e
    exact pow_cached_static_array_fst (reachableStatic_good h) b e
  · intro s b e h
    exact pow_vec_cached_float_fst_fresh h

/-- C1 witness: the amended claim evaluated at concrete inputs — the map
cache on its initial state returns `std::pow`'s value `2^3`, and the float
vector cache on a fresh key returns the hierarchical kernel's value. -/
theorem C1_witness :
    (pow_cached_map (fun b e => b ^ e) [] 2 3).1 = 8 ∧
    (pow_vec_cached_float [] (1 / 2) 0).1 = pow_hierarchical_float (1 / 2) 0 := by
  constructor
  · have h := C1_cached_refinement.1 (fun b e => b ^ e) [] ReachableMap.empty 2 3
    rw [h]
    norm_num
  · exact C1_cached_refinement.2.2.2.2.2 [] (1 / 2) 0 (by simp [vecGet])

/-- C2 counterexample: at the double nearest 1.1 (exactly
`2476979795053773/2^51`) and exponent 7, the iterative binary kernel and the
divide-and-conquer kernel differ in the last bit: the former yields
`8776241605410519/2^52`, the latter `8776241605410518/2^52` (the same
factors are multiplied in a different association order, and binary64
multiplication is not associative). -/
theorem C2_counterexample :
    pow_fast_int_fp (2476979795053773 / 2251799813685248) 7 ≠
      pow_hierarchical_float (2476979795053773 / 2251799813685248) 7 := by
  rw [fast_at_b7, hier_at_b7]
  norm_num

/-- C2 (amended): for every non-negative exponent, `pow_fast_int` and
`pow_ultra_fast` return bit-for-bit identical results at every
floating-point base (and all three kernels agree exactly — equal to `b^e` —
over any commutative ring of scalars, which covers the exact and the
fixed-width wrap-around integer instantiations); only the hierarchical
kernel may differ from the other two in the final bits on floating-point
bases. -/
theorem C2_three_kernels :
    (∀ (R : Type) [CommRing R] (b : R) (e : ℕ),
      pow_fast_int b (e : ℤ) = b ^ e ∧ pow_hierarchical_int b e = b ^ e ∧
        pow_ultra_fast b e = b ^ e) ∧
    (∀ b : ℚ, fl b = b → ∀ e : ℕ,
      pow_fast_int_fp b (e : ℤ) = pow_ultra_fast_fp b e) := by
  constructor
  · intro R _ b e
    exact ⟨pow_fast_int_eq b e, pow_hierarchical_int_eq e b, pow_ultra_fast_eq b e⟩
  · intro b hb e
    exact pow_fast_int_fp_eq_ultra hb e

/-- C2 witness: the amended claim evaluated at concrete inputs — all three
kernels produce `2^10 = 1024` over the integers, and the iterative and
unrolled kernels agree bit-for-bit at the representable base `3/2` with
exponent 7. -/
theorem C2_witness :
    pow_fast_int (2 : ℤ) ((10 : ℕ) : ℤ) = 1024 ∧
    pow_fast_int_fp (3 / 2) ((7 : ℕ) : ℤ) = pow_ultra_fast_fp (3 / 2) 7 := by
  constructor
  · have h := (C2_three_kernels.1 ℤ 2 10).1
    rw [h]
    norm_num
  · exact C2_three_kernels.2 (3 / 2)
      (fl_eq_self_of_dyadic 6755399441055744 0 (by norm_num) (by norm_num)
        (by norm_num)) 7

/-- C3 counterexample: `pow_2_3_cbrt` at the negative base -8 returns the
finite value `cbrt(64) = 4`, not NaN (squaring first makes the argument of
`cbrt` non-negative), and `pow_fast_int` at a negative exponent returns 0,
not NaN. -/
theorem C3_counterexample :
    pow_2_3_cbrt cbrtModel (.fin (-8)) = .fin 4 ∧ Fd.fin (4 : ℚ) ≠ Fd.nan ∧
      pow_fast_int (2 : ℤ) (-1) = 0 := by
  refine ⟨?_, fun h => Fd.noConfusion h, pow_fast_int_neg_exp 2 (by norm_num)⟩
  rw [pow_2_3_cbrt_fin]
  have h : cbrtModel ((-8 : ℚ) * (-8)) = 4 := by
    rw [show ((-8 : ℚ) * (-8)) = 64 by norm_num]
    unfold cbrtModel
    rw [if_pos ⟨by norm_num, rfl⟩]
    rw [show ((64 : ℚ)).num.toNat = 64 from rfl]
    rw [show icbrt 64 = 4 from by decide]
    norm_num
  rw [h]

/-- C3 (amended): `pow_2_3_series` and `pow_2_3_exp_log` return NaN for
every negative (finite) base, and no kernel aborts; but `pow_2_3_cbrt`
returns the finite value `cbrt(base²)` — never NaN — for every finite base,
and `pow_fast_int` returns 0, not NaN, for every negative exponent. -/
theorem C3_domain_sentinels :
    (∀ (cbrtf : ℚ → ℚ) (powf : ℚ → ℚ → ℚ) (base : ℚ), base < 0 →
      pow_2_3_series cbrtf powf base = none) ∧
    (∀ (logf expf : ℚ → ℚ) (q : ℚ), q < 0 →
      pow_2_3_exp_log logf expf (.fin q) = .nan) ∧
    (∀ (cbrtf : ℚ → ℚ) (q : ℚ), pow_2_3_cbrt cbrtf (.fin q) ≠ .nan) ∧
    (∀ (R : Type) [CommRing R] (b : R) (e : ℤ), e < 0 → pow_fast_int b e = 0) ∧
    (∀ (b : ℚ) (e : ℤ), e < 0 → pow_fast_int_fp b e = 0) := by
  refine ⟨?_, ?_, ?_, ?_, ?_⟩
  · intro cbrtf powf base h
    exact pow_2_3_series_neg cbrtf powf h
  · intro logf expf q h
    exact pow_2_3_exp_log_neg logf expf h
  · intro cbrtf q
    rw [pow_2_3_cbrt_fin]
    exact fun h => Fd.noConfusion h
  · intro R _ b e he
    exact pow_fast_int_neg_exp b he
  · intro b e he
    exact pow_fast_int_fp_neg_exp b he

/-- C3 witness: the amended claim evaluated at concrete inputs. -/
theorem C3_witness :
    pow_2_3_series (fun q => q) (fun _ _ => 0) (-2) = none ∧
    pow_2_3_exp_log (fun q => q) (fun q => q) (.fin (-1)) = .nan ∧
    pow_fast_int_fp (1 : ℚ) (-7) = 0 :=
  ⟨C3_domain_sentinels.1 _ _ (-2) (by norm_num),
    C3_domain_sentinels.2.1 _ _ (-1) (by norm_num),
    C3_domain_sentinels.2.2.2.2 1 (-7) (by norm_num)⟩

/-- C4: `compute_error` returns absolute error `|reference − candidate|`,
and relative error equal to the absolute error divided by `|reference|` when
the reference is non-zero and 0 when the reference is zero. -/
theorem C4_compute_error :
    ∀ r v : ℚ,
      (compute_error r v).abs_err = |r - v| ∧
      (r ≠ 0 → (compute_error r v).rel_err = |r - v| / |r|) ∧
      (r = 0 → (compute_error r v).rel_err = 0) := by
  intro r v
  refine ⟨rfl, ?_, ?_⟩
  · intro h
    show (if r ≠ 0 then |r - v| / |r| else 0) = |r - v| / |r|
    rw [if_pos h]
  · intro h
    show (if r ≠ 0 then |r - v| / |r| else 0) = 0
    rw [if_neg (by simp [h])]

/-- C4 witness: `compute_error(100, 99.9) = {0.1, 0.001}` and
`compute_error(0, 0).rel_err = 0`. -/
theorem C4_witness :
    (compute_error 100 (999 / 10)).abs_err = 1 / 10 ∧
    (compute_error 100 (999 / 10)).rel_err = 1 / 1000 ∧
    (compute_error 0 0).rel_err = 0 := by
  refine ⟨?_, ?_, (C4_compute_error 0 0).2.2 rfl⟩
  · have h := (C4_compute_error 100 (999 / 10)).1
    rw [h]
    norm_num
  · have h := (C4_compute_error 100 (999 / 10)).2.1 (by norm_num)
    rw [h, show |(100 : ℚ) - 999 / 10| = 1 / 10 by norm_num,
      show |(100 : ℚ)| = 100 by norm_num]
    norm_num

/-- C5: for every positive base, `pow_2_3_series` computes `n` as the
nearest integer (half away from zero) to the libm cube root of the base,
`a = n³`, `z = base/a − 1`, and returns `n²` times the 10-term truncated
binomial series `∑_{k<10} C(2/3, k)·z^k` — whose terms satisfy the
recurrence `term_k = term_{k-1}·(α−k+1)/k·z`, `α = 2/3`, `term_0 = 1` —
falling back to the libm power when `a = 0`. -/
theorem C5_series_structure :
    ∀ (cbrtf : ℚ → ℚ) (powf : ℚ → ℚ → ℚ) (base : ℚ), 0 < base →
      pow_2_3_series cbrtf powf base =
        if ((roundAway (cbrtf base) : ℚ)) ^ 3 = 0 then some (powf base (2 / 3))
        else
          some (((roundAway (cbrtf base) : ℚ)) ^ 2 *
            ∑ k ∈ Finset.range 10,
              binomCoef23 k *
                (base / ((roundAway (cbrtf base) : ℚ)) ^ 3 - 1) ^ k) := by
  intro cbrtf powf base hpos
  unfold pow_2_3_series
  rw [if_neg (ne_of_gt hpos), if_neg (not_lt.mpr (le_of_lt hpos))]
  show (if ((roundAway (cbrtf base) : ℚ)) * (roundAway (cbrtf base) : ℚ) *
        (roundAway (cbrtf base) : ℚ) = 0 then some (powf base (2 / 3))
      else
        some (((roundAway (cbrtf base) : ℚ)) * (roundAway (cbrtf base) : ℚ) *
          seriesLoop
            (base / (((roundAway (cbrtf base) : ℚ)) * (roundAway (cbrtf base) : ℚ) *
              (roundAway (cbrtf base) : ℚ)) - 1) 1 9 1 1)) = _
  rw [show ((roundAway (cbrtf base) : ℚ)) * (roundAway (cbrtf base) : ℚ) *
      (roundAway (cbrtf base) : ℚ) = ((roundAway (cbrtf base) : ℚ)) ^ 3 by ring]
  rw [show ((roundAway (cbrtf base) : ℚ)) * (roundAway (cbrtf base) : ℚ) =
      ((roundAway (cbrtf base) : ℚ)) ^ 2 by ring]
  split_ifs with hc
  · rfl
  · rw [seriesLoop_sum]

/-- C5 witness: at the perfect cube 27 (with the libm cube root returning 3)
the series argument is `z = 0` and the kernel returns `n² = 9` exactly. -/
theorem C5_witness :
    pow_2_3_series (fun _ => 3) (fun _ _ => 0) 27 = some 9 := by
  rw [C5_series_structure (fun _ => 3) (fun _ _ => 0) 27 (by norm_num)]
  have hr : roundAway ((3 : ℚ)) = 3 := by
    unfold roundAway
    rw [if_neg (by norm_num)]
    norm_num
  show (if ((roundAway (3 : ℚ) : ℚ)) ^ 3 = 0 then some ((0 : ℚ))
      else
        some (((roundAway (3 : ℚ) : ℚ)) ^ 2 *
          ∑ k ∈ Finset.range 10,
            binomCoef23 k * ((27 : ℚ) / ((roundAway (3 : ℚ) : ℚ)) ^ 3 - 1) ^ k)) =
      some 9
  rw [hr]
  rw [if_neg (by norm_num)]
  rw [show (27 : ℚ) / ((3 : ℤ) : ℚ) ^ 3 - 1 = 0 by norm_num]
  have hsum : ∑ k ∈ Finset.range 10, binomCoef23 k * (0 : ℚ) ^ k = 1 := by
    rw [Finset.sum_range_succ' (fun k => binomCoef23 k * (0 : ℚ) ^ k) 9]
    simp [binomCoef23]
  rw [hsum]
  norm_num

/-- C6: with exponent 0 every integer-exponent kernel — the three pure
kernels over any scalar ring, their floating-point instantiations, and all
six cached variants from any reachable cache state — returns 1, for every
base including 0.  (For the double-keyed caches, `f` models the libm
`std::pow`, which satisfies `pow(b, 0) = 1` for every `b`.) -/
theorem C6_exponent_zero_one :
    (∀ (R : Type) [CommRing R] (b : R),
      pow_fast_int b 0 = 1 ∧ pow_hierarchical_int b 0 = 1 ∧
        pow_ultra_fast b 0 = 1) ∧
    (∀ b : ℚ, pow_fast_int_fp b 0 = 1 ∧ pow_hierarchical_float b 0 = 1 ∧
      pow_ultra_fast_fp b 0 = 1) ∧
    (∀ (f : ℚ → ℤ → ℚ) (s : List ((ℚ × ℤ) × ℚ)), ReachableMap f s →
      (∀ x, f x 0 = 1) → ∀ b, (pow_cached_map f s b 0).1 = 1) ∧
    (∀ (f : ℚ → ℤ → ℚ) (s : List ((ℚ × ℤ) × ℚ)), ReachablePair f s →
      (∀ x, f x 0 = 1) → ∀ b, (pow_cached_unordered_pair f s b 0).1 = 1) ∧
    (∀ (f : ℚ → ℤ → ℚ) (c : List (ℚ × List (ℤ × ℚ))), ReachableNested f c →
      (∀ x, f x 0 = 1) → ∀ b, (pow_cached_unordered_nested f c b 0).1 = 1) ∧
    (∀ s : List (List (Option ℤ)), ReachableVecInt s →
      ∀ b, (pow_cached_vector_optional_int s b 0).1 = 1) ∧
    (∀ s : StaticCache, ReachableStatic s →
      ∀ b, (pow_cached_static_array s b 0).1 = 1) ∧
    (∀ s : List (List (Option ℚ)), ReachableVecFloat s →
      ∀ b, (pow_vec_cached_float s b 0).1 = 1) := by
  refine ⟨?_, ?_, ?_, ?_, ?_, ?_, ?_, ?_⟩
  · intro R _ b
    exact ⟨pow_fast_int_zero_exp b,
      (pow_hierarchical_int_eq 0 b).trans (pow_zero b),
      (pow_ultra_fast_eq b 0).trans (pow_zero b)⟩
  · intro b
    exact ⟨pow_fast_int_fp_zero_exp b, pow_hierarchical_float_zero b,
      pow_ultra_fast_fp_zero_exp b⟩
  · intro f s h hf b
    rw [pow_cached_map_fst (reachableMap_good h) b 0]
    exact hf b
  · intro f s h hf b
    rw [pair_eq_map, pow_cached_map_fst (reachablePair_good h) b 0]
    exact hf b
  · intro f c h hf b
    rw [pow_cached_unordered_nested_fst (reachableNested_good h) b 0]
    exact hf b
  · intro s h b
    rw [pow_cached_vector_optional_int_fst (reachableVecInt_good h) b 0]
    exact (pow_hierarchical_int_eq 0 b).trans (pow_zero b)
  · intro s h b
    rw [pow_cached_static_array_fst (reachableStatic_good h) b 0]
    exact (pow_hierarchical_int_eq 0 b).trans (pow_zero b)
  · intro s h b
    exact pow_vec_cached_float_fst_zero (reachableVecFloat_zero_good h) b

/-- C6 witness: exponent 0 returns 1 at base 0 for the pure integer kernel,
the map cache (with `f` the mathematical power, which is 1 at exponent 0)
and the static-array cache from their initial states. -/
theorem C6_witness :
    pow_fast_int (0 : ℤ) 0 = 1 ∧
    (pow_cached_map (fun b e => b ^ e) [] 0 0).1 = 1 ∧
    (pow_cached_static_array staticInit 0 0).1 = 1 :=
  ⟨(C6_exponent_zero_one.1 ℤ 0).1,
    C6_exponent_zero_one.2.2.1 (fun b e => b ^ e) [] ReachableMap.empty
      (fun x => zpow_zero x) 0,
    C6_exponent_zero_one.2.2.2.2.2.2.1 staticInit ReachableStatic.empty 0⟩

/-- C7: for every memoised kernel, every starting cache state and every
`(b, e)`: the second of two successive calls with the same pair returns the
same value as the first, and does not increase the cache's distinct-key
count (insertion is idempotent; in fact the second call leaves the state
unchanged). -/
theorem C7_memo_idempotent :
    (∀ (f : ℚ → ℤ → ℚ) (s : List ((ℚ × ℤ) × ℚ)) (b : ℚ) (e : ℤ),
      (pow_cached_map f (pow_cached_map f s b e).2 b e).1 =
        (pow_cached_map f s b e).1 ∧
      mapKeyCount (pow_cached_map f (pow_cached_map f s b e).2 b e).2 ≤
        mapKeyCount (pow_cached_map f s b e).2) ∧
    (∀ (f : ℚ → ℤ → ℚ) (s : List ((ℚ × ℤ) × ℚ)) (b : ℚ) (e : ℤ),
      (pow_cached_unordered_pair f (pow_cached_unordered_pair f s b e).2 b e).1 =
        (pow_cached_unordered_pair f s b e).1 ∧
      mapKeyCount (pow_cached_unordered_pair f
          (pow_cached_unordered_pair f s b e).2 b e).2 ≤
        mapKeyCount (pow_cached_unordered_pair f s b e).2) ∧
    (∀ (f : ℚ → ℤ → ℚ) (c : List (ℚ × List (ℤ × ℚ))) (b : ℚ) (e : ℤ),
      (pow_cached_unordered_nested f
          (pow_cached_unordered_nested f c b e).2 b e).1 =
        (pow_cached_unordered_nested f c b e).1 ∧
      nestedKeyCount (pow_cached_unordered_nested f
          (pow_cached_unordered_nested f c b e).2 b e).2 ≤
        nestedKeyCount (pow_cached_unordered_nested f c b e).2) ∧
    (∀ (s : List (List (Option ℤ))) (b : ℤ) (e : ℕ),
      (pow_cached_vector_optional_int
          (pow_cached_vector_optional_int s b e).2 b e).1 =
        (pow_cached_vector_optional_int s b e).1 ∧
      vecKeyCount (pow_cached_vector_optional_int
          (pow_cached_vector_optional_int s b e).2 b e).2 ≤
        vecKeyCount (pow_cached_vector_optional_int s b e).2) ∧
    (∀ (s : StaticCache) (b : ℤ) (e : ℕ),
      (pow_cached_static_array (pow_cached_static_array s b e).2 b e).1 =
        (pow_cached_static_array s b e).1 ∧
      staticKeyCount (pow_cached_static_array
          (pow_cached_static_array s b e).2 b e).2 ≤
        staticKeyCount (pow_cached_static_array s b e).2) ∧
    (∀ (s : List (List (Option ℚ))) (b : ℚ) (e : ℕ),
      (pow_vec_cached_float (pow_vec_cached_float s b e).2 b e).1 =
        (pow_vec_cached_float s b e).1 ∧
      vecKeyCount (pow_vec_cached_float
          (pow_vec_cached_float s b e).2 b e).2 ≤
        vecKeyCount (pow_vec_cached_float s b e).2) := by
  refine ⟨?_, ?_, ?_, ?_, ?_, ?_⟩
  · intro f s b e
    have h := pow_cached_map_idem f s b e
    exact ⟨by rw [h], by rw [h]⟩
  · intro f s b e
    rw [pair_eq_map]
    have h := pow_cached_map_idem f s b e
    exact ⟨by rw [h], by rw [h]⟩
  · intro f c b e
    have h := pow_cached_unordered_nested_idem f c b e
    exact ⟨by rw [h], by rw [h]⟩
  · intro s b e
    have h := pow_cached_vector_optional_int_idem s b e
    exact ⟨by rw [h], by rw [h]⟩
  · intro s b e
    have h := pow_cached_static_array_idem s b e
    exact ⟨by rw [h], by rw [h]⟩
  · intro s b e
    have h := pow_vec_cached_float_idem s b e
    exact ⟨by rw [h], by rw [h]⟩

/-- C8: the divide-and-conquer kernels recurse strictly on `exp >> 1`
(their defining equations for `e ≥ 2`), the recursion depth equals
`⌊log2 e⌋`, is at most `⌈log2 e⌉`, and is at most 64 for every 64-bit
exponent — so the recursion always reaches a base case with bounded stack
depth. -/
theorem C8_hierarchical_termination :
    (∀ (R : Type) [CommRing R] (b : R) (e : ℕ), 2 ≤ e →
      pow_hierarchical_int b e =
        (if e % 2 = 1 then b * pow_hierarchical_int (b * b) (e / 2)
         else pow_hierarchical_int (b * b) (e / 2))) ∧
    (∀ (b : ℚ) (e : ℕ), 2 ≤ e →
      pow_hierarchical_float b e =
        (if e % 2 = 1 then fpMul b (pow_hierarchical_float (fpMul b b) (e / 2))
         else pow_hierarchical_float (fpMul b b) (e / 2))) ∧
    (∀ e : ℕ, hierDepth e = Nat.log2 e) ∧
    (∀ e : ℕ, 1 ≤ e → hierDepth e ≤ Nat.clog 2 e) ∧
    (∀ e : ℕ, e < 2 ^ 64 → hierDepth e ≤ 64) := by
  refine ⟨?_, ?_, hierDepth_eq_log2, ?_, ?_⟩
  · intro R _ b e h2
    match e, h2 with
    | e + 2, _ => rw [pow_hierarchical_int]
  · intro b e h2
    rcases Nat.even_or_odd e with hev | hev
    · have hm : e % 2 = 0 := Nat.even_iff.mp hev
      rw [pow_hierarchical_float_even h2 hm, if_neg (by omega)]
    · have hm : e % 2 = 1 := Nat.odd_iff.mp hev
      rw [pow_hierarchical_float_odd h2 hm, if_pos hm]
  · intro e he
    rw [hierDepth_eq_log2]
    have h1 : 2 ^ Nat.log2 e ≤ e := Nat.log2_self_le (by omega)
    have h2 : e ≤ 2 ^ Nat.clog 2 e := Nat.le_pow_clog one_lt_two e
    exact (Nat.pow_le_pow_iff_right one_lt_two).mp (le_trans h1 h2)
  · intro e he
    rw [hierDepth_eq_log2]
    by_cases h0 : e = 0
    · subst h0
      simp [Nat.log2]
    · have : Nat.log2 e < 64 := (Nat.log2_lt h0).mpr (by omega)
      omega

/-- C8 witness: the depth facts at concrete exponents and the defining
equation of the integer kernel at `(2, 5)`. -/
theorem C8_witness :
    hierDepth 10 = Nat.log2 10 ∧ hierDepth 1000000 ≤ 64 ∧
    pow_hierarchical_int (2 : ℤ) 5 = 2 * pow_hierarchical_int ((2 : ℤ) * 2) 2 := by
  refine ⟨C8_hierarchical_termination.2.2.1 10,
    C8_hierarchical_termination.2.2.2.2 1000000 (by norm_num), ?_⟩
  have h := C8_hierarchical_termination.1 ℤ 2 5 (by norm_num)
  rw [h]
  norm_num

/-- C9: a miss of the memoised kernel writes to the shared static table —
here, one call at `(2, 10)` on the empty cache changes the cache state.  No
mutual-exclusion construct exists anywhere in the kernel sources, so under
concurrent invocation this write races (the comments at
benchmark_pow.cpp:609 and pow_impl.hpp:21 claim mutex-based thread safety,
but no mutex is present). -/
theorem C9_unsynchronised_write :
    (pow_cached_map (fun b e => b ^ e) [] 2 10).2 ≠ [] := by
  unfold pow_cached_map
  rw [show mapFind (2, 10) [] = (none : Option ℚ) from rfl]
  simp

/-- C10: for every base of any scalar ring (covering all supported numeric
types, including base 0 and base 1) and every negative exponent,
`pow_fast_int` returns exactly 0 — not NaN, not 1 — and returns it as a
value rather than raising any error. -/
theorem C10_negative_exponent_zero :
    (∀ (R : Type) [CommRing R] (b : R) (e : ℤ), e < 0 → pow_fast_int b e = 0) ∧
    (∀ (b : ℚ) (e : ℤ), e < 0 → pow_fast_int_fp b e = 0) :=
  ⟨fun _ _ b _ he => pow_fast_int_neg_exp b he,
    fun b _ he => pow_fast_int_fp_neg_exp b he⟩

/-- C10 witness: negative exponents return 0 at bases 0 and 1, in both the
integer and the floating-point instantiation. -/
theorem C10_witness :
    pow_fast_int (0 : ℤ) (-1) = 0 ∧ pow_fast_int (1 : ℤ) (-1) = 0 ∧
    pow_fast_int_fp 0 (-2) = 0 ∧ pow_fast_int_fp 1 (-2) = 0 :=
  ⟨C10_negative_exponent_zero.1 ℤ 0 (-1) (by norm_num),
    C10_negative_exponent_zero.1 ℤ 1 (-1) (by norm_num),
    C10_negative_exponent_zero.2 0 (-2) (by norm_num),
    C10_negative_exponent_zero.2 1 (-2) (by norm_num)⟩

end powerix

